import Mathlib

set_option maxHeartbeats 1000000
set_option maxRecDepth 10000
set_option linter.unnecessarySeqFocus false

namespace VsCodeOwl

/-!
Shallow embedding of the diff-parsing and change-localization core of the
repository (a VS Code extension).  The definitions below are translated from
the TypeScript source: the `GitIntegration` class (diff parser, commit
watcher, commit-change acquisition) and the `CommentManager` class (review
threads).  Machine numbers are modelled as `Nat`/`Int`; JavaScript `Map`s as
insertion-ordered association lists; `undefined`/`null` as `Option`;
collaborator calls (git API, file search, the LLM service, `applyEdit`) as
explicit oracle parameters.
-/

/-! Data model: the TypeScript interfaces `DiffLine`, `DiffHunk`, `ParsedDiff`.

`DiffLine` in the source is `{ type: 'add' | 'remove' | 'context', content,
oldLineNumber?, newLineNumber? }`; the parser only ever builds the three
shapes below, so the sum type records exactly the fields each tag carries. -/

inductive DiffLine where
  | add (content : String) (newLineNumber : Nat)
  | remove (content : String) (oldLineNumber : Nat)
  | context (content : String) (oldLineNumber newLineNumber : Nat)
  deriving DecidableEq, Repr

structure DiffHunk where
  oldStart : Nat
  oldCount : Nat
  newStart : Nat
  newCount : Nat
  lines : List DiffLine
  deriving DecidableEq, Repr

/-- The `status` field is a plain string in the source (`'modified' | 'added' | 'deleted'`). -/
structure ParsedDiff where
  filePath : String
  status : String
  hunks : List DiffHunk
  addedLines : Nat
  removedLines : Nat
  deriving DecidableEq, Repr

/-! Hunk-header regular expression.

The source matches `line.match(/@@ -(\d+)(?:,(\d+))? \+(\d+)(?:,(\d+))? @@/)`
(unanchored, leftmost match) and then defaults the optional counts with
`parseInt(hunkMatch[2] || '1')`.  The functions below implement exactly that
search; the optional `,count` groups are greedy with fallback, as in the
regex engine. -/

/-- Maximal run of decimal digits, accumulated as a `Nat` (the `\d+` atom). -/
def takeDigitsAux : Nat → List Char → Nat × List Char
  | acc, [] => (acc, [])
  | acc, c :: cs =>
    if c.isDigit then takeDigitsAux (10 * acc + (c.toNat - 48)) cs else (acc, c :: cs)

/-- The `\d+` atom: fails unless at least one digit is present. -/
def takeDigits : List Char → Option (Nat × List Char)
  | [] => none
  | c :: cs => if c.isDigit then some (takeDigitsAux 0 (c :: cs)) else none

/-- The trailing `(?:,(\d+))? @@` of the pattern; returns the new-count
(defaulted to 1 when the optional group is absent). -/
def matchSuffixAfterNew (cs : List Char) : Option Nat :=
  (match cs with
   | ',' :: r =>
     (takeDigits r).bind fun p =>
       match p.2 with
       | ' ' :: '@' :: '@' :: _ => some p.1
       | _ => none
   | _ => none).orElse fun _ =>
    match cs with
    | ' ' :: '@' :: '@' :: _ => some 1
    | _ => none

/-- The ` \+(\d+)(?:,(\d+))? @@` part; returns (newStart, newCount). -/
def matchPlusPart (cs : List Char) : Option (Nat × Nat) :=
  match cs with
  | ' ' :: '+' :: r =>
    (takeDigits r).bind fun p => (matchSuffixAfterNew p.2).map fun nc => (p.1, nc)
  | _ => none

/-- The `(?:,(\d+))? \+(\d+)(?:,(\d+))? @@` part after the old-start digits;
returns (oldCount, newStart, newCount). -/
def matchSuffixAfterOld (cs : List Char) : Option (Nat × Nat × Nat) :=
  ((match cs with
    | ',' :: r =>
      (takeDigits r).bind fun p => (matchPlusPart p.2).map fun q => (p.1, q.1, q.2)
    | _ => none : Option (Nat × Nat × Nat))).orElse fun _ =>
    (matchPlusPart cs).map fun q => (1, q.1, q.2)

/-- Try the whole pattern at the current position. -/
def matchHunkAt (cs : List Char) : Option (Nat × Nat × Nat × Nat) :=
  match cs with
  | '@' :: '@' :: ' ' :: '-' :: r =>
    (takeDigits r).bind fun p =>
      (matchSuffixAfterOld p.2).map fun q => (p.1, q.1, q.2.1, q.2.2)
  | _ => none

/-- Leftmost match of the hunk-header pattern anywhere in the character list. -/
def searchHunkHeader : List Char → Option (Nat × Nat × Nat × Nat)
  | [] => none
  | c :: cs => (matchHunkAt (c :: cs)).orElse fun _ => searchHunkHeader cs

/-- Model of `line.match(/@@ -(\d+)(?:,(\d+))? \+(\d+)(?:,(\d+))? @@/)` with the
`|| '1'` count defaults already applied: returns
`(oldStart, oldCount, newStart, newCount)`. -/
def matchHunkHeader (line : String) : Option (Nat × Nat × Nat × Nat) :=
  searchHunkHeader line.data

/-! Splitting and small JavaScript string helpers. -/

/-- JavaScript `String.prototype.split` with a single-character separator (keeps empty
pieces, as JavaScript does). -/
def splitCharAux (sep : Char) : List Char → List Char → List String
  | [], acc => [String.mk acc.reverse]
  | c :: cs, acc =>
    if c = sep then String.mk acc.reverse :: splitCharAux sep cs []
    else splitCharAux sep cs (c :: acc)

def jsSplit (s : String) (sep : Char) : List String :=
  splitCharAux sep s.data []

/-- JavaScript `str.substring(n)` on ASCII text: drop the first `n` characters
(returns `""` when the string is shorter, never fails). -/
def jsSubstringFrom (s : String) (n : Nat) : String :=
  String.mk (s.data.drop n)

/-- Character-list prefix test. -/
def charsStartWith : List Char → List Char → Bool
  | _, [] => true
  | [], _ :: _ => false
  | c :: cs, p :: ps => c = p && charsStartWith cs ps

/-- JavaScript `str.startsWith(p)`. -/
def jsStartsWith (s p : String) : Bool :=
  charsStartWith s.data p.data

/-- Model of `fileParts[i]?.substring(2)` followed by JavaScript falsiness (`undefined`
and the empty string are both falsy): `none` when the index is out of range or
the dropped string is empty. -/
def jsIndexSub2 (parts : List String) (i : Nat) : Option String :=
  match parts[i]? with
  | some t => let u := jsSubstringFrom t 2; if u = "" then none else some u
  | none => none

/-- File path extraction from a `diff --git` header line:
`fileParts[3]?.substring(2) || fileParts[2]?.substring(2) || 'unknown'`. -/
def extractFilePath (line : String) : String :=
  let parts := jsSplit line ' '
  ((jsIndexSub2 parts 3).orElse fun _ => jsIndexSub2 parts 2).getD "unknown"

/-! Parser state: the `parseDiffText` local variables.

`currentFile`/`currentHunk` are the two nullable mutable locals.  One JS
subtlety must be modelled explicitly: on a line that starts with `@@` but does
NOT match the hunk pattern, the source pushes `currentHunk` into
`currentFile.hunks` and *keeps it current* (it is not reset to `null`), so the
same hunk object can be pushed again later; all array slots alias one object
and show its final value.  `hunkPushes` counts how many times the current hunk
object has already been pushed; the aliased occurrences are materialized (as
`List.replicate` of the final value) when the hunk stops being current. -/

structure ParseState where
  parsedDiffs : List ParsedDiff
  currentFile : Option ParsedDiff
  currentHunk : Option DiffHunk
  hunkPushes : Nat
  oldLineNum : Nat
  newLineNum : Nat
  deriving DecidableEq, Repr

def initParseState : ParseState :=
  { parsedDiffs := [], currentFile := none, currentHunk := none,
    hunkPushes := 0, oldLineNum := 0, newLineNum := 0 }

/-- Freeze the current hunk into a file's hunk array: all aliased array slots
(`pushes` earlier ones plus `extra` new ones) now show the hunk's final value. -/
def freezeHunk (f : ParsedDiff) (h : DiffHunk) (occurrences : Nat) : ParsedDiff :=
  { f with hunks := f.hunks ++ List.replicate occurrences h }

/-- One iteration of the `for (const line of lines)` loop of `parseDiffText`. -/
def processLine (s : ParseState) (line : String) : ParseState :=
  if jsStartsWith line "diff --git" then
    -- finalize any in-progress hunk and file, then open the new file
    let s1 :=
      match s.currentFile with
      | some f =>
        let f1 :=
          match s.currentHunk with
          | some h => freezeHunk f h (s.hunkPushes + 1)
          | none => f
        { s with parsedDiffs := s.parsedDiffs ++ [f1], currentFile := none,
                 currentHunk := none, hunkPushes := 0 }
      | none => s
    let nf : ParsedDiff :=
      { filePath := extractFilePath line, status := "modified", hunks := [],
        addedLines := 0, removedLines := 0 }
    { s1 with currentFile := some nf }
  else if jsStartsWith line "new file mode" then
    match s.currentFile with
    | some f => { s with currentFile := some { f with status := "added" } }
    | none => s
  else if jsStartsWith line "deleted file mode" then
    match s.currentFile with
    | some f => { s with currentFile := some { f with status := "deleted" } }
    | none => s
  else if jsStartsWith line "@@" then
    match matchHunkHeader line with
    | some (os, oc, ns, nc) =>
      let fresh : DiffHunk :=
        { oldStart := os, oldCount := oc, newStart := ns, newCount := nc, lines := [] }
      match s.currentHunk, s.currentFile with
      | some h, some f =>
        -- push pending hunk (one more aliased slot), then start the new one
        { s with currentFile := some (freezeHunk f h (s.hunkPushes + 1)),
                 currentHunk := some fresh, hunkPushes := 0,
                 oldLineNum := os, newLineNum := ns }
      | _, _ =>
        { s with currentHunk := some fresh, hunkPushes := 0,
                 oldLineNum := os, newLineNum := ns }
    | none =>
      -- malformed header: the push still happens, the hunk stays current
      match s.currentHunk, s.currentFile with
      | some _, some _ => { s with hunkPushes := s.hunkPushes + 1 }
      | _, _ => s
  else
    match s.currentHunk, s.currentFile with
    | some h, some f =>
      if jsStartsWith line "+" && !jsStartsWith line "+++" then
        { s with
            currentHunk := some
              { h with lines := h.lines ++ [.add (jsSubstringFrom line 1) s.newLineNum] },
            currentFile := some { f with addedLines := f.addedLines + 1 },
            newLineNum := s.newLineNum + 1 }
      else if jsStartsWith line "-" && !jsStartsWith line "---" then
        { s with
            currentHunk := some
              { h with lines := h.lines ++ [.remove (jsSubstringFrom line 1) s.oldLineNum] },
            currentFile := some { f with removedLines := f.removedLines + 1 },
            oldLineNum := s.oldLineNum + 1 }
      else if jsStartsWith line " " then
        { s with
            currentHunk := some
              { h with lines :=
                h.lines ++ [.context (jsSubstringFrom line 1) s.oldLineNum s.newLineNum] },
            oldLineNum := s.oldLineNum + 1, newLineNum := s.newLineNum + 1 }
      else s
    | _, _ => s

/-- The post-loop finalization: add the very last file and its last hunk. -/
def finalizeParse (s : ParseState) : List ParsedDiff :=
  match s.currentFile with
  | some f =>
    let f1 :=
      match s.currentHunk with
      | some h => freezeHunk f h (s.hunkPushes + 1)
      | none => f
    s.parsedDiffs ++ [f1]
  | none => s.parsedDiffs

/-- Main entry `parseDiffText` of the `GitIntegration` class: split on newlines, scan
sequentially, finalize at end of input.  The initial guard returns `[]` for
an empty input string. -/
def parseDiffText (diffText : String) : List ParsedDiff :=
  if diffText = "" then []
  else finalizeParse ((jsSplit diffText '\n').foldl processLine initParseState)

/-! Derived observers used to state the claims about parser output. -/

/-- Number of Add-kind lines in a line list. -/
def addCount : List DiffLine → Nat
  | [] => 0
  | .add _ _ :: ls => addCount ls + 1
  | .remove _ _ :: ls => addCount ls
  | .context _ _ _ :: ls => addCount ls

/-- Number of Remove-kind lines in a line list. -/
def removeCount : List DiffLine → Nat
  | [] => 0
  | .add _ _ :: ls => removeCount ls
  | .remove _ _ :: ls => removeCount ls + 1
  | .context _ _ _ :: ls => removeCount ls

/-- Total count of Add-kind lines across a list of hunks. -/
def sumAddLines (hs : List DiffHunk) : Nat :=
  (hs.map fun h => addCount h.lines).sum

/-- Total count of Remove-kind lines across a list of hunks. -/
def sumRemoveLines (hs : List DiffHunk) : Nat :=
  (hs.map fun h => removeCount h.lines).sum

/-- The `oldLineNumber` values, in order, over the Remove and Context lines. -/
def oldNums : List DiffLine → List Nat
  | [] => []
  | .add _ _ :: ls => oldNums ls
  | .remove _ o :: ls => o :: oldNums ls
  | .context _ o _ :: ls => o :: oldNums ls

/-- The `newLineNumber` values, in order, over the Add and Context lines. -/
def newNums : List DiffLine → List Nat
  | [] => []
  | .add _ n :: ls => n :: newNums ls
  | .remove _ _ :: ls => newNums ls
  | .context _ _ n :: ls => n :: newNums ls

/-- Lines of the current hunk (empty when no hunk is open). -/
def curLines (s : ParseState) : List DiffLine :=
  match s.currentHunk with
  | some h => h.lines
  | none => []

/-- A line the scanner ignores entirely: not a file header, not a status
marker, not a hunk header, and either not shaped like hunk content or arriving
while no hunk/file is open.  (This covers `+++`/`---` markers, index lines,
`\ No newline at end of file`, and stray text.) -/
def contentLike (line : String) : Bool :=
  (jsStartsWith line "+" && !jsStartsWith line "+++") ||
  (jsStartsWith line "-" && !jsStartsWith line "---") ||
  jsStartsWith line " "

def skippableLine (s : ParseState) (line : String) : Bool :=
  !jsStartsWith line "diff --git" && !jsStartsWith line "new file mode" &&
  !jsStartsWith line "deleted file mode" && !jsStartsWith line "@@" &&
  (!contentLike line || s.currentHunk.isNone || s.currentFile.isNone)

/-- Hunk-header well-formedness of one input line: if it starts with `@@`, it
matches the hunk-header pattern.  (The amended counter claim is restricted to
inputs whose lines all satisfy this.) -/
def hunkLineOk (line : String) : Prop :=
  jsStartsWith line "@@" = true → (matchHunkHeader line).isSome = true

instance (line : String) : Decidable (hunkLineOk line) :=
  inferInstanceAs
    (Decidable (jsStartsWith line "@@" = true → (matchHunkHeader line).isSome = true))

/-- Spec §8 monotonicity, per hunk: the `oldLineNumber`s over Remove/Context
lines are consecutive from `oldStart`, and the `newLineNumber`s over
Add/Context lines are consecutive from `newStart`. -/
def hunkLinesConsecutive (h : DiffHunk) : Prop :=
  oldNums h.lines = List.range' h.oldStart (oldNums h.lines).length ∧
  newNums h.lines = List.range' h.newStart (newNums h.lines).length

/-- Scan invariant for the monotonicity claim: every already-recorded hunk is
consecutive, and the running line counters sit exactly past the lines already
recorded in the open hunk. -/
def monoInv (s : ParseState) : Prop :=
  (∀ fc ∈ s.parsedDiffs, ∀ h ∈ fc.hunks, hunkLinesConsecutive h) ∧
  (∀ f, s.currentFile = some f → ∀ h ∈ f.hunks, hunkLinesConsecutive h) ∧
  (∀ h, s.currentHunk = some h →
    hunkLinesConsecutive h ∧
    s.oldLineNum = h.oldStart + (oldNums h.lines).length ∧
    s.newLineNum = h.newStart + (newNums h.lines).length)

/-- Scan invariant for the counter claim (on inputs whose `@@` lines all
match): no duplicated pushes are pending, finalized files have consistent
counters, the open file's counters cover its frozen hunks plus the open hunk,
and a hunk opened before any file header has no lines yet. -/
def counterInv (s : ParseState) : Prop :=
  s.hunkPushes = 0 ∧
  (∀ fc ∈ s.parsedDiffs,
    fc.addedLines = sumAddLines fc.hunks ∧ fc.removedLines = sumRemoveLines fc.hunks) ∧
  (∀ f, s.currentFile = some f →
    f.addedLines = sumAddLines f.hunks + addCount (curLines s) ∧
    f.removedLines = sumRemoveLines f.hunks + removeCount (curLines s)) ∧
  (s.currentFile = none → ∀ h, s.currentHunk = some h → h.lines = [])

/-! Commit-change acquisition (`analyzeNewCommit`) and the commit watcher
(`handleRepositoryChange`) of the `GitIntegration` class.  The git extension
API is modelled as an oracle: the changed-file list returned by
`repo.diffBetween(prev, new)` and the per-file diff text returned by
`repo.diffBetween(prev, new, path)`, which may fail (`Except.error`). -/

structure CommitDiffOracle where
  changedFiles : List String
  fileDiff : String → Except String String

/-- Outcome of `analyzeNewCommit`: each early `return` of the source is one
constructor, and `analyzed` is the path that sends parsed diffs onward. -/
inductive AnalyzeResult where
  | noChangedFiles
  | noDiffText
  | emptyParse
  | analyzed (diffs : List ParsedDiff)
  deriving DecidableEq

/-- The `for (const change of changedFiles)` loop of `analyzeNewCommit`:
`fullDiffText += fileDiff + '\n'` on success, `console.error` and continue on
failure. -/
def buildFullDiffText (oracle : CommitDiffOracle) : String :=
  oracle.changedFiles.foldl
    (fun acc path =>
      match oracle.fileDiff path with
      | .ok d => acc ++ d ++ "\n"
      | .error _ => acc) ""

/-- Model of `analyzeNewCommit` (after the changed-file query): first
component is the outcome, second component records every text on which
`parseDiffText` was invoked. -/
def analyzeNewCommit (oracle : CommitDiffOracle) : AnalyzeResult × List String :=
  if oracle.changedFiles.isEmpty then (.noChangedFiles, [])
  else
    let full := buildFullDiffText oracle
    if full = "" then (.noDiffText, [])
    else
      let parsed := parseDiffText full
      if parsed.isEmpty then (.emptyParse, [full]) else (.analyzed parsed, [full])

/-- Spec-style right-to-left description of the concatenation: each
successfully retrieved per-file diff followed by a newline, in file-list
order, failures skipped. -/
def concatFileDiffs (fileDiff : String → Except String String) : List String → String
  | [] => ""
  | p :: ps =>
    (match fileDiff p with
     | .ok d => d ++ "\n"
     | .error _ => "") ++ concatFileDiffs fileDiff ps

/-- The `lastCommitSha : string | null` field of `GitIntegration`. -/
structure GitWatcherState where
  lastCommitSha : Option String
  deriving DecidableEq

/-- What one `repository.state.onDidChange` notification observes:
`repo.state.HEAD?.commit` (`none` when HEAD or its commit is missing) and
`repo.state.workingTreeChanges`. -/
structure RepoObservation where
  headCommit : Option String
  workingTreeChanges : List String
  deriving DecidableEq

inductive WatcherAction where
  | analyzeCommit (previous current : String) (result : AnalyzeResult)
  | analyzeWorkingTreeDiffs (changes : List String)
  deriving DecidableEq

/-- Model of `handleRepositoryChange`: detects a commit transition, invokes
`analyzeNewCommit` exactly when the tracked sha is set (JavaScript-truthy) and
differs from the observed one, then unconditionally advances `lastCommitSha`
and finally analyzes any working-tree changes.  `analyzeNewCommit` catches all
its own errors in the source, so the watermark update runs regardless of the
acquisition outcome; the oracle carrying that outcome is a parameter. -/
def handleRepositoryChange (oracle : CommitDiffOracle) (s : GitWatcherState)
    (obs : RepoObservation) : GitWatcherState × List WatcherAction :=
  match obs.headCommit with
  | some curr =>
    if curr = "" then (s, [])
    else
      let commitActs : List WatcherAction :=
        match s.lastCommitSha with
        | some prev =>
          if prev ≠ "" ∧ prev ≠ curr then
            [WatcherAction.analyzeCommit prev curr (analyzeNewCommit oracle).1]
          else []
        | none => []
      let wtActs : List WatcherAction :=
        if obs.workingTreeChanges.length > 0 then
          [WatcherAction.analyzeWorkingTreeDiffs obs.workingTreeChanges]
        else []
      ({ lastCommitSha := some curr }, commitActs ++ wtActs)
  | none => (s, [])

/-- The commit acquisitions (previous, current revision pairs) among a list of
watcher actions. -/
def acquisitionsTriggered (acts : List WatcherAction) : List (String × String) :=
  acts.filterMap fun a =>
    match a with
    | .analyzeCommit p c _ => some (p, c)
    | .analyzeWorkingTreeDiffs _ => none

/-! Review-thread registry: the `CommentManager` class.  `threads` and
`threadData` are JavaScript `Map`s keyed by generated thread ids, modelled as
insertion-ordered association lists; `disposedThreads` is an event log of the
`thread.dispose()` calls (the source has no such field, it is the observable
effect).  VS Code comment objects are presentation-only; a thread handle keeps
its uri, range and the number of comments shown. -/

structure ConversationMessage where
  author : String
  message : String
  timestamp : Nat
  deriving DecidableEq

/-- TypeScript interface `CodeReviewSuggestion` (the `Suggestion` of the spec:
`suggestion` is its text, `codeChange` its optional replacement). -/
structure CodeReviewSuggestion where
  filePath : String
  startLine : Int
  endLine : Int
  suggestion : String
  codeChange : Option String
  deriving DecidableEq

structure CommentThreadData where
  suggestion : CodeReviewSuggestion
  conversation : List ConversationMessage
  isCollapsed : Bool
  deriving DecidableEq

/-- A `vscode.Range(startLine, 0, endLine, 1024)` value. -/
structure VsRange where
  startLine : Int
  startCharacter : Int
  endLine : Int
  endCharacter : Int
  deriving DecidableEq

/-- The observable part of a `vscode.CommentThread` handle. -/
structure CommentThreadModel where
  uri : String
  range : VsRange
  commentCount : Nat
  deriving DecidableEq

structure CommentManagerState where
  threads : List (String × CommentThreadModel)
  threadData : List (String × CommentThreadData)
  disposedThreads : List String
  deriving DecidableEq

def emptyManager : CommentManagerState :=
  { threads := [], threadData := [], disposedThreads := [] }

/-- JavaScript `Map.prototype.get`. -/
def jsMapGet {α : Type} (m : List (String × α)) (k : String) : Option α :=
  match m with
  | [] => none
  | kv :: rest => if kv.1 = k then some kv.2 else jsMapGet rest k

/-- JavaScript `Map.prototype.set`: overwrites in place, else appends
(insertion order preserved). -/
def jsMapSet {α : Type} (m : List (String × α)) (k : String) (v : α) : List (String × α) :=
  match m with
  | [] => [(k, v)]
  | kv :: rest => if kv.1 = k then (k, v) :: rest else kv :: jsMapSet rest k v

/-- JavaScript `Map.prototype.delete`: a `Map` holds each key at most once,
so dropping every binding of the key is the same operation on all reachable
states. -/
def jsMapDelete {α : Type} (m : List (String × α)) (k : String) : List (String × α) :=
  match m with
  | [] => []
  | kv :: rest => if kv.1 = k then jsMapDelete rest k else kv :: jsMapDelete rest k

/-- The range computed in `createAdvancedCommentThread`:
`new vscode.Range(Math.max(0, startLine-1), 0, Math.max(0, endLine-1), 1024)`. -/
def suggestionRange (sugg : CodeReviewSuggestion) : VsRange :=
  { startLine := max 0 (sugg.startLine - 1), startCharacter := 0,
    endLine := max 0 (sugg.endLine - 1), endCharacter := 1024 }

/-- The one-message conversation stored for a freshly created thread. -/
def initialConversation (sugg : CodeReviewSuggestion) (now : Nat) : List ConversationMessage :=
  [{ author := "CodeOwl AI", message := sugg.suggestion, timestamp := now }]

/-- Model of `createAdvancedCommentThread`.  `findFile` is the
`vscode.workspace.findFiles` oracle (first workspace uri whose path matches
the suggestion's file path, `none` when the file is not found); `threadId`
the generated `codeowl_...` id; `now` the `new Date()` timestamp. -/
def createAdvancedCommentThread (findFile : String → Option String) (threadId : String)
    (now : Nat) (st : CommentManagerState) (sugg : CodeReviewSuggestion) :
    CommentManagerState :=
  match findFile sugg.filePath with
  | none => st
  | some uri =>
    { st with
        threads := jsMapSet st.threads threadId
          { uri := uri, range := suggestionRange sugg, commentCount := 1 },
        threadData := jsMapSet st.threadData threadId
          { suggestion := sugg, conversation := initialConversation sugg now,
            isCollapsed := false } }

/-- Model of `clearAllComments`: dispose every thread handle, then clear both
maps. -/
def clearAllComments (st : CommentManagerState) : CommentManagerState :=
  { threads := [], threadData := [],
    disposedThreads := st.disposedThreads ++ st.threads.map fun kv => kv.1 }

structure CodeReview where
  summary : String
  suggestions : List CodeReviewSuggestion
  deriving DecidableEq

/-- Model of `displayReviewsAsComments`: clear all old comments first, then
create one thread per suggestion.  `threadIds` supplies the generated id for
each suggestion, in order (the source generates `codeowl_${Date.now()}_...`
per created thread). -/
def displayReviewsAsComments (findFile : String → Option String) (threadIds : List String)
    (now : Nat) (st : CommentManagerState) (review : CodeReview) : CommentManagerState :=
  let st1 := clearAllComments st
  if review.suggestions.isEmpty then st1
  else
    (review.suggestions.zip threadIds).foldl
      (fun acc p => createAdvancedCommentThread findFile p.2 now acc p.1) st1

/-- Outcome of `applySuggestion`: the two `showErrorMessage` paths and the
success path carrying the edit handed to `workspace.applyEdit`. -/
inductive ApplyOutcome where
  | noChangeAvailable
  | editRejected
  | applied (uri : String) (range : VsRange) (newText : String)
  deriving DecidableEq

/-- Model of `applySuggestion`.  `applyEdit` is the `workspace.applyEdit`
collaborator (true = accepted).  The guard mirrors
`!threadData || !thread || !threadData.suggestion.codeChange || !thread.range`
(an empty-string `codeChange` is JavaScript-falsy; `thread.range` is always
present in this model since every created thread stores one). -/
def applySuggestion (applyEdit : String → VsRange → String → Bool)
    (st : CommentManagerState) (threadId : String) : CommentManagerState × ApplyOutcome :=
  match jsMapGet st.threadData threadId, jsMapGet st.threads threadId with
  | some td, some th =>
    match td.suggestion.codeChange with
    | some change =>
      if change = "" then (st, .noChangeAvailable)
      else if applyEdit th.uri th.range change then
        ({ st with threads := jsMapDelete st.threads threadId,
                   threadData := jsMapDelete st.threadData threadId,
                   disposedThreads := st.disposedThreads ++ [threadId] },
         .applied th.uri th.range change)
      else (st, .editRejected)
    | none => (st, .noChangeAvailable)
  | _, _ => (st, .noChangeAvailable)

/-- Model of `markAsUnderstood` (resolve): dispose and drop the thread if the
id is known, else do nothing. -/
def markAsUnderstood (st : CommentManagerState) (threadId : String) : CommentManagerState :=
  match jsMapGet st.threads threadId with
  | some _ =>
    { st with threads := jsMapDelete st.threads threadId,
              threadData := jsMapDelete st.threadData threadId,
              disposedThreads := st.disposedThreads ++ [threadId] }
  | none => st

/-- The LLM response consumed by `fixWithAI` (`generateComprehensiveFix`). -/
structure AiFixResponse where
  success : Bool
  message : String
  codeChange : Option String
  deriving DecidableEq

/-- Model of `fixWithAI`: pushes a loading comment, replaces it with the fix
or error comment (net one extra comment), and — on success with a
JavaScript-truthy `response.codeChange` — overwrites
`threadData.suggestion.codeChange`. -/
def fixWithAI (resp : AiFixResponse) (st : CommentManagerState) (threadId : String) :
    CommentManagerState :=
  match jsMapGet st.threadData threadId, jsMapGet st.threads threadId with
  | some td, some th =>
    let th1 := { th with commentCount := th.commentCount + 1 }
    let td1 :=
      if resp.success then
        match resp.codeChange with
        | some c =>
          if c = "" then td
          else { td with suggestion := { td.suggestion with codeChange := some c } }
        | none => td
      else td
    { st with threads := jsMapSet st.threads threadId th1,
              threadData := jsMapSet st.threadData threadId td1 }
  | _, _ => st

/-- The LLM response consumed by a reply (`getAIConversationResponse` never
throws: its own catch converts errors into a message with
`shouldRemove = false`). -/
structure AiReplyResponse where
  message : String
  shouldRemove : Bool
  deriving DecidableEq

/-- Model of `handleUserReplyFromComment`: appends the user message to the
conversation; when the AI answer continues the conversation it is appended
too and shown as one more comment.  When `shouldRemove` is set the source
only schedules a deferred `markAsUnderstood` via `setTimeout`; that later
resolve is a separate operation, not part of this one. -/
def handleUserReplyFromComment (resp : AiReplyResponse) (nowUser nowAi : Nat)
    (st : CommentManagerState) (threadId replyText : String) : CommentManagerState :=
  match jsMapGet st.threadData threadId, jsMapGet st.threads threadId with
  | some td, some th =>
    let td1 := { td with conversation :=
      td.conversation ++ [{ author := "User", message := replyText, timestamp := nowUser }] }
    if resp.shouldRemove then
      { st with threadData := jsMapSet st.threadData threadId td1,
                threads := jsMapSet st.threads threadId th }
    else
      let td2 := { td1 with conversation := td1.conversation ++
        [{ author := "CodeOwl AI", message := resp.message, timestamp := nowAi }] }
      { st with threadData := jsMapSet st.threadData threadId td2,
                threads := jsMapSet st.threads threadId
                  { th with commentCount := th.commentCount + 1 } }
  | _, _ => st

/-- The thread operations of the registry, each packaged with the oracle
values it consumes. -/
inductive ManagerOp where
  | create (findFile : String → Option String) (threadId : String) (now : Nat)
      (sugg : CodeReviewSuggestion)
  | reply (resp : AiReplyResponse) (nowUser nowAi : Nat) (threadId replyText : String)
  | aiFix (resp : AiFixResponse) (threadId : String)
  | applyFix (applyEdit : String → VsRange → String → Bool) (threadId : String)
  | understood (threadId : String)
  | clearAll
  | display (findFile : String → Option String) (threadIds : List String) (now : Nat)
      (review : CodeReview)

def applyManagerOp (st : CommentManagerState) : ManagerOp → CommentManagerState
  | .create findFile tid now sugg => createAdvancedCommentThread findFile tid now st sugg
  | .reply resp nowUser nowAi tid txt => handleUserReplyFromComment resp nowUser nowAi st tid txt
  | .aiFix resp tid => fixWithAI resp st tid
  | .applyFix applyEdit tid => (applySuggestion applyEdit st tid).1
  | .understood tid => markAsUnderstood st tid
  | .clearAll => clearAllComments st
  | .display findFile ids now review => displayReviewsAsComments findFile ids now st review

/-- Whether an operation (re)creates a thread under the given id. -/
def opCreatesId (op : ManagerOp) (tid : String) : Bool :=
  match op with
  | .create _ t _ _ => t == tid
  | .display _ ids _ _ => decide (tid ∈ ids)
  | _ => false

/-- Whether an operation is an AI-fix request targeted at the given id. -/
def opFixesId (op : ManagerOp) (tid : String) : Bool :=
  match op with
  | .aiFix _ t => t == tid
  | _ => false

/-- The thread handles `displayReviewsAsComments` is expected to produce: one
per (suggestion, id) pair whose file was found. -/
def expectedThreads (findFile : String → Option String)
    (pairs : List (CodeReviewSuggestion × String)) : List (String × CommentThreadModel) :=
  pairs.filterMap fun p =>
    match findFile p.1.filePath with
    | some uri => some (p.2, { uri := uri, range := suggestionRange p.1, commentCount := 1 })
    | none => none

/-- The thread data `displayReviewsAsComments` is expected to produce. -/
def expectedThreadData (findFile : String → Option String) (now : Nat)
    (pairs : List (CodeReviewSuggestion × String)) : List (String × CommentThreadData) :=
  pairs.filterMap fun p =>
    match findFile p.1.filePath with
    | some _ => some (p.2,
        { suggestion := p.1, conversation := initialConversation p.1 now,
          isCollapsed := false })
    | none => none

/-! Concrete values used by the theorems and witnesses below. -/

/-- Spec §8 Scenario A input. -/
def scenarioAInput : String :=
  "diff --git a/x.txt b/x.txt\n@@ -1,2 +1,3 @@\n context\n-old\n+new1\n+new2\n"

/-- Spec §8 Scenario A expected hunk. -/
def scenarioAHunk : DiffHunk :=
  { oldStart := 1, oldCount := 2, newStart := 1, newCount := 3,
    lines := [.context "context" 1 1, .remove "old" 2,
              .add "new1" 2, .add "new2" 3] }

/-- Spec §8 Scenario A expected output record. -/
def scenarioAOutput : ParsedDiff :=
  { filePath := "x.txt", status := "modified", hunks := [scenarioAHunk],
    addedLines := 2, removedLines := 1 }

/-- A diff containing a line that starts with `@@` but does not match the
hunk-header pattern while a hunk is open: the source pushes the open hunk and
keeps appending to it, then pushes it again at end of input. -/
def malformedHunkInput : String :=
  "diff --git a/x b/x\n@@ -1 +1 @@\n+a\n@@bad\n+b\n"

/-- A suggestion with no replacement, used for the immutability refutation. -/
def suggT1 : CodeReviewSuggestion :=
  { filePath := "a.ts", startLine := 1, endLine := 2,
    suggestion := "use const", codeChange := none }

/-- The stored thread data for `suggT1`. -/
def tdT1 : CommentThreadData :=
  { suggestion := suggT1, conversation := initialConversation suggT1 0,
    isCollapsed := false }

/-- A registry holding one thread for `suggT1` under id `t1`. -/
def mgrT1 : CommentManagerState :=
  { threads := [("t1", { uri := "ws/a.ts", range := suggestionRange suggT1,
                         commentCount := 1 })],
    threadData := [("t1", tdT1)],
    disposedThreads := [] }

/-- A suggestion carrying a replacement, for the apply witnesses. -/
def suggT2 : CodeReviewSuggestion :=
  { filePath := "b.ts", startLine := 3, endLine := 3,
    suggestion := "simplify", codeChange := some "return x;" }

/-- A registry holding one thread for `suggT2` under id `t2`. -/
def mgrT2 : CommentManagerState :=
  { threads := [("t2", { uri := "ws/b.ts", range := suggestionRange suggT2,
                         commentCount := 1 })],
    threadData := [("t2", { suggestion := suggT2,
                            conversation := initialConversation suggT2 0,
                            isCollapsed := false })],
    disposedThreads := [] }

/-! Helper lemmas. -/

theorem addCount_append (l1 l2 : List DiffLine) :
    addCount (l1 ++ l2) = addCount l1 + addCount l2 := by
  induction l1 with
  | nil => simp [addCount]
  | cons x t ih => cases x <;> simp [addCount, ih] <;> omega

theorem removeCount_append (l1 l2 : List DiffLine) :
    removeCount (l1 ++ l2) = removeCount l1 + removeCount l2 := by
  induction l1 with
  | nil => simp [removeCount]
  | cons x t ih => cases x <;> simp [removeCount, ih] <;> omega

theorem oldNums_append (l1 l2 : List DiffLine) :
    oldNums (l1 ++ l2) = oldNums l1 ++ oldNums l2 := by
  induction l1 with
  | nil => simp [oldNums]
  | cons x t ih => cases x <;> simp [oldNums, ih]

theorem newNums_append (l1 l2 : List DiffLine) :
    newNums (l1 ++ l2) = newNums l1 ++ newNums l2 := by
  induction l1 with
  | nil => simp [newNums]
  | cons x t ih => cases x <;> simp [newNums, ih]

theorem range'_snoc (a n : Nat) :
    List.range' a n ++ [a + n] = List.range' a (n + 1) := by
  induction n generalizing a with
  | zero => simp
  | succ k ih =>
    have h : a + (k + 1) = (a + 1) + k := by omega
    rw [List.range'_succ, List.cons_append, h, ih (a + 1)]
    simp [List.range'_succ]

theorem sumAddLines_append (h1 h2 : List DiffHunk) :
    sumAddLines (h1 ++ h2) = sumAddLines h1 + sumAddLines h2 := by
  simp [sumAddLines]

theorem sumRemoveLines_append (h1 h2 : List DiffHunk) :
    sumRemoveLines (h1 ++ h2) = sumRemoveLines h1 + sumRemoveLines h2 := by
  simp [sumRemoveLines]

theorem sumAddLines_replicate_one (h : DiffHunk) :
    sumAddLines (List.replicate 1 h) = addCount h.lines := by
  simp [sumAddLines]

theorem sumRemoveLines_replicate_one (h : DiffHunk) :
    sumRemoveLines (List.replicate 1 h) = removeCount h.lines := by
  simp [sumRemoveLines]

theorem jsMapGet_set_self {α : Type} (m : List (String × α)) (k : String) (v : α) :
    jsMapGet (jsMapSet m k v) k = some v := by
  induction m with
  | nil => simp [jsMapSet, jsMapGet]
  | cons kv rest ih =>
    by_cases h : kv.1 = k <;> simp [jsMapSet, jsMapGet, h, ih]

theorem jsMapGet_set_ne {α : Type} (m : List (String × α)) (k k' : String) (v : α)
    (h : k ≠ k') : jsMapGet (jsMapSet m k v) k' = jsMapGet m k' := by
  induction m with
  | nil => simp [jsMapSet, jsMapGet, h]
  | cons kv rest ih =>
    by_cases hk : kv.1 = k
    · simp [jsMapSet, jsMapGet, hk, h]
    · by_cases hk' : kv.1 = k' <;> simp [jsMapSet, jsMapGet, hk, hk', Ne.symm h, ih]

theorem jsMapGet_delete_self {α : Type} (m : List (String × α)) (k : String) :
    jsMapGet (jsMapDelete m k) k = none := by
  induction m with
  | nil => simp [jsMapDelete, jsMapGet]
  | cons kv rest ih =>
    by_cases h : kv.1 = k <;> simp [jsMapDelete, jsMapGet, h, ih]

theorem jsMapGet_delete_ne {α : Type} (m : List (String × α)) (k k' : String)
    (h : k ≠ k') : jsMapGet (jsMapDelete m k) k' = jsMapGet m k' := by
  induction m with
  | nil => simp [jsMapDelete, jsMapGet]
  | cons kv rest ih =>
    by_cases hk : kv.1 = k
    · have : kv.1 ≠ k' := by rw [hk]; exact h
      simp [jsMapDelete, jsMapGet, hk, this, h, ih]
    · by_cases hk' : kv.1 = k' <;> simp [jsMapDelete, jsMapGet, hk, hk', Ne.symm h, ih]

theorem jsMapSet_of_get_none {α : Type} (m : List (String × α)) (k : String) (v : α)
    (h : jsMapGet m k = none) : jsMapSet m k v = m ++ [(k, v)] := by
  induction m with
  | nil => simp [jsMapSet]
  | cons kv rest ih =>
    by_cases hk : kv.1 = k
    · simp [jsMapGet, hk] at h
    · simp [jsMapGet, hk] at h
      simp [jsMapSet, hk, ih h]

/-! C1: Scenario A. -/

/-- C1: parsing the Scenario A text yields exactly one FileChange for
`x.txt` with status `modified`, one hunk `(1,2,1,3)` whose lines are
Context("context",1,1), Remove("old",2), Add("new1",2), Add("new2",3),
with addedLines = 2, removedLines = 1. -/
theorem parse_scenarioA : parseDiffText scenarioAInput = [scenarioAOutput] := by
  decide

/-! C2: the derived counters.  As stated the claim fails: on a line that
starts with `@@` but does not match the hunk pattern while a hunk is open,
the source pushes the pending hunk into `hunks`, keeps it current, and pushes
it again when it is finalized, so the same hunk occurs twice and the per-file
counters undercount the Add/Remove lines summed over `hunks`. -/

/-- C2 counterexample: on `malformedHunkInput` the parsed file has
`addedLines = 2` but its (duplicated) hunks carry 4 Add lines in total. -/
theorem parse_counters_counterexample :
    ¬ (∀ fc ∈ parseDiffText malformedHunkInput,
        fc.addedLines = sumAddLines fc.hunks ∧
        fc.removedLines = sumRemoveLines fc.hunks) := by
  decide

/-! Equation lemmas for `processLine`, one per branch of the source loop. -/

theorem processLine_header_none (s : ParseState) (line : String)
    (h1 : jsStartsWith line "diff --git" = true) (hcf : s.currentFile = none) :
    processLine s line =
      { s with currentFile := some (⟨extractFilePath line, "modified", [], 0, 0⟩ : ParsedDiff) } := by
  simp [processLine, h1, hcf]

theorem processLine_header_some (s : ParseState) (line : String) (f : ParsedDiff)
    (h1 : jsStartsWith line "diff --git" = true) (hcf : s.currentFile = some f) :
    processLine s line =
      { s with
          parsedDiffs := s.parsedDiffs ++
            [match s.currentHunk with
             | some h => freezeHunk f h (s.hunkPushes + 1)
             | none => f],
          currentFile := some (⟨extractFilePath line, "modified", [], 0, 0⟩ : ParsedDiff),
          currentHunk := none, hunkPushes := 0 } := by
  cases hch : s.currentHunk <;> simp [processLine, h1, hcf, hch]

theorem processLine_newfile (s : ParseState) (line : String)
    (h1 : jsStartsWith line "diff --git" = false)
    (h2 : jsStartsWith line "new file mode" = true) :
    processLine s line =
      (match s.currentFile with
       | some f => { s with currentFile := some { f with status := "added" } }
       | none => s) := by
  cases hcf : s.currentFile <;> simp [processLine, h1, h2, hcf]

theorem processLine_deletedfile (s : ParseState) (line : String)
    (h1 : jsStartsWith line "diff --git" = false)
    (h2 : jsStartsWith line "new file mode" = false)
    (h3 : jsStartsWith line "deleted file mode" = true) :
    processLine s line =
      (match s.currentFile with
       | some f => { s with currentFile := some { f with status := "deleted" } }
       | none => s) := by
  cases hcf : s.currentFile <;> simp [processLine, h1, h2, h3, hcf]

theorem processLine_hunk_matched (s : ParseState) (line : String)
    (os oc ns nc : Nat)
    (h1 : jsStartsWith line "diff --git" = false)
    (h2 : jsStartsWith line "new file mode" = false)
    (h3 : jsStartsWith line "deleted file mode" = false)
    (h4 : jsStartsWith line "@@" = true)
    (hm : matchHunkHeader line = some (os, oc, ns, nc)) :
    processLine s line =
      (match s.currentHunk, s.currentFile with
       | some h, some f =>
         { s with currentFile := some (freezeHunk f h (s.hunkPushes + 1)),
                  currentHunk := some ⟨os, oc, ns, nc, []⟩, hunkPushes := 0,
                  oldLineNum := os, newLineNum := ns }
       | _, _ =>
         { s with currentHunk := some ⟨os, oc, ns, nc, []⟩, hunkPushes := 0,
                  oldLineNum := os, newLineNum := ns }) := by
  cases hch : s.currentHunk <;> cases hcf : s.currentFile <;>
    simp [processLine, h1, h2, h3, h4, hm, hch, hcf]

theorem processLine_hunk_unmatched (s : ParseState) (line : String)
    (h1 : jsStartsWith line "diff --git" = false)
    (h2 : jsStartsWith line "new file mode" = false)
    (h3 : jsStartsWith line "deleted file mode" = false)
    (h4 : jsStartsWith line "@@" = true)
    (hm : matchHunkHeader line = none) :
    processLine s line =
      (match s.currentHunk, s.currentFile with
       | some _, some _ => { s with hunkPushes := s.hunkPushes + 1 }
       | _, _ => s) := by
  cases hch : s.currentHunk <;> cases hcf : s.currentFile <;>
    simp [processLine, h1, h2, h3, h4, hm, hch, hcf]

theorem processLine_content_add (s : ParseState) (line : String)
    (h : DiffHunk) (f : ParsedDiff)
    (h1 : jsStartsWith line "diff --git" = false)
    (h2 : jsStartsWith line "new file mode" = false)
    (h3 : jsStartsWith line "deleted file mode" = false)
    (h4 : jsStartsWith line "@@" = false)
    (hch : s.currentHunk = some h) (hcf : s.currentFile = some f)
    (hplus : jsStartsWith line "+" = true)
    (hppp : jsStartsWith line "+++" = false) :
    processLine s line =
      { s with
          currentHunk := some { h with lines :=
            h.lines ++ [DiffLine.add (jsSubstringFrom line 1) s.newLineNum] },
          currentFile := some { f with addedLines := f.addedLines + 1 },
          newLineNum := s.newLineNum + 1 } := by
  simp [processLine, h1, h2, h3, h4, hch, hcf, hplus, hppp]

theorem processLine_content_remove (s : ParseState) (line : String)
    (h : DiffHunk) (f : ParsedDiff)
    (h1 : jsStartsWith line "diff --git" = false)
    (h2 : jsStartsWith line "new file mode" = false)
    (h3 : jsStartsWith line "deleted file mode" = false)
    (h4 : jsStartsWith line "@@" = false)
    (hch : s.currentHunk = some h) (hcf : s.currentFile = some f)
    (hplus : (jsStartsWith line "+" && !jsStartsWith line "+++") = false)
    (hminus : jsStartsWith line "-" = true)
    (hmmm : jsStartsWith line "---" = false) :
    processLine s line =
      { s with
          currentHunk := some { h with lines :=
            h.lines ++ [DiffLine.remove (jsSubstringFrom line 1) s.oldLineNum] },
          currentFile := some { f with removedLines := f.removedLines + 1 },
          oldLineNum := s.oldLineNum + 1 } := by
  simp [processLine, h1, h2, h3, h4, hch, hcf, hplus, hminus, hmmm]

theorem processLine_content_context (s : ParseState) (line : String)
    (h : DiffHunk) (f : ParsedDiff)
    (h1 : jsStartsWith line "diff --git" = false)
    (h2 : jsStartsWith line "new file mode" = false)
    (h3 : jsStartsWith line "deleted file mode" = false)
    (h4 : jsStartsWith line "@@" = false)
    (hch : s.currentHunk = some h) (hcf : s.currentFile = some f)
    (hplus : (jsStartsWith line "+" && !jsStartsWith line "+++") = false)
    (hminus : (jsStartsWith line "-" && !jsStartsWith line "---") = false)
    (hspace : jsStartsWith line " " = true) :
    processLine s line =
      { s with
          currentHunk := some { h with lines :=
            h.lines ++ [DiffLine.context (jsSubstringFrom line 1) s.oldLineNum s.newLineNum] },
          oldLineNum := s.oldLineNum + 1, newLineNum := s.newLineNum + 1 } := by
  simp [processLine, h1, h2, h3, h4, hch, hcf, hplus, hminus, hspace]

theorem processLine_content_skip (s : ParseState) (line : String)
    (h1 : jsStartsWith line "diff --git" = false)
    (h2 : jsStartsWith line "new file mode" = false)
    (h3 : jsStartsWith line "deleted file mode" = false)
    (h4 : jsStartsWith line "@@" = false)
    (hplus : (jsStartsWith line "+" && !jsStartsWith line "+++") = false)
    (hminus : (jsStartsWith line "-" && !jsStartsWith line "---") = false)
    (hspace : jsStartsWith line " " = false) :
    processLine s line = s := by
  cases hch : s.currentHunk <;> cases hcf : s.currentFile <;>
    simp [processLine, h1, h2, h3, h4, hch, hcf, hplus, hminus, hspace]

theorem processLine_content_nofile (s : ParseState) (line : String)
    (h1 : jsStartsWith line "diff --git" = false)
    (h2 : jsStartsWith line "new file mode" = false)
    (h3 : jsStartsWith line "deleted file mode" = false)
    (h4 : jsStartsWith line "@@" = false)
    (hnf : s.currentHunk = none ∨ s.currentFile = none) :
    processLine s line = s := by
  rcases hnf with hch | hcf
  · simp [processLine, h1, h2, h3, h4, hch]
  · cases hch : s.currentHunk <;> simp [processLine, h1, h2, h3, h4, hch, hcf]

/-! Fold preservation and the counter invariant. -/

theorem foldl_processLine_inv {P : ParseState → Prop} {lineOK : String → Prop}
    (step : ∀ s line, lineOK line → P s → P (processLine s line)) :
    ∀ (ls : List String) (s : ParseState), P s → (∀ l ∈ ls, lineOK l) →
      P (ls.foldl processLine s)
  | [], _, hs, _ => hs
  | l :: t, s, hs, hok =>
    foldl_processLine_inv step t (processLine s l)
      (step s l (hok l (List.mem_cons_self l t)) hs)
      (fun x hx => hok x (List.mem_cons_of_mem l hx))

theorem counterInv_init : counterInv initParseState := by
  refine ⟨rfl, ?_, ?_, ?_⟩ <;> simp [initParseState]

theorem counterInv_step (s : ParseState) (line : String) (hok : hunkLineOk line)
    (hinv : counterInv s) : counterInv (processLine s line) := by
  obtain ⟨hp0, hdone, hcur, horphan⟩ := hinv
  cases h1 : jsStartsWith line "diff --git" with
  | true =>
    cases hcf : s.currentFile with
    | none =>
      rw [processLine_header_none s line h1 hcf]
      refine ⟨hp0, hdone, ?_, by simp⟩
      intro f hf
      simp only [Option.some.injEq] at hf
      subst hf
      cases hch : s.currentHunk with
      | none => simp [curLines, hch, sumAddLines, sumRemoveLines, addCount, removeCount]
      | some h0 =>
        have hl := horphan hcf h0 hch
        simp [curLines, hch, hl, sumAddLines, sumRemoveLines, addCount, removeCount]
    | some f =>
      rw [processLine_header_some s line f h1 hcf]
      refine ⟨rfl, ?_, ?_, by simp⟩
      · intro fc hfc
        simp only [List.mem_append, List.mem_singleton] at hfc
        rcases hfc with hfc | hfc
        · exact hdone fc hfc
        · subst hfc
          obtain ⟨ha, hr⟩ := hcur f hcf
          cases hch : s.currentHunk with
          | none =>
            simp only [curLines, hch] at ha hr
            simp [ha, hr, addCount, removeCount]
          | some h0 =>
            simp only [curLines, hch] at ha hr
            simp [freezeHunk, hp0, sumAddLines_append, sumRemoveLines_append,
                  sumAddLines, sumRemoveLines, ha, hr]
      · intro f' hf'
        simp only [Option.some.injEq] at hf'
        subst hf'
        simp [curLines, sumAddLines, sumRemoveLines, addCount, removeCount]
  | false =>
    cases h2 : jsStartsWith line "new file mode" with
    | true =>
      rw [processLine_newfile s line h1 h2]
      cases hcf : s.currentFile with
      | none => exact ⟨hp0, hdone, hcur, horphan⟩
      | some f =>
        refine ⟨hp0, hdone, ?_, by simp⟩
        intro f' hf'
        simp only [Option.some.injEq] at hf'
        subst hf'
        obtain ⟨ha, hr⟩ := hcur f hcf
        cases hch : s.currentHunk with
        | none =>
          simp only [curLines, hch] at ha hr ⊢
          simp [ha, hr]
        | some h0 =>
          simp only [curLines, hch] at ha hr ⊢
          simp [ha, hr]
    | false =>
      cases h3 : jsStartsWith line "deleted file mode" with
      | true =>
        rw [processLine_deletedfile s line h1 h2 h3]
        cases hcf : s.currentFile with
        | none => exact ⟨hp0, hdone, hcur, horphan⟩
        | some f =>
          refine ⟨hp0, hdone, ?_, by simp⟩
          intro f' hf'
          simp only [Option.some.injEq] at hf'
          subst hf'
          obtain ⟨ha, hr⟩ := hcur f hcf
          cases hch : s.currentHunk with
          | none =>
            simp only [curLines, hch] at ha hr ⊢
            simp [ha, hr]
          | some h0 =>
            simp only [curLines, hch] at ha hr ⊢
            simp [ha, hr]
      | false =>
        cases h4 : jsStartsWith line "@@" with
        | true =>
          have hiss : (matchHunkHeader line).isSome = true := hok h4
          obtain ⟨q, hm⟩ := Option.isSome_iff_exists.mp hiss
          obtain ⟨os, oc, ns, nc⟩ := q
          rw [processLine_hunk_matched s line os oc ns nc h1 h2 h3 h4 hm]
          cases hch : s.currentHunk with
          | none =>
            cases hcf : s.currentFile with
            | none =>
              refine ⟨rfl, hdone, by simp [hcf], ?_⟩
              intro _ h' hh'
              simp only [Option.some.injEq] at hh'
              subst hh'
              rfl
            | some f =>
              refine ⟨rfl, hdone, ?_, by simp⟩
              intro f' hf'
              simp only [hcf, Option.some.injEq] at hf'
              subst hf'
              obtain ⟨ha, hr⟩ := hcur f hcf
              simp only [curLines, hch] at ha hr
              simp [curLines, ha, hr, addCount, removeCount]
          | some h0 =>
            cases hcf : s.currentFile with
            | none =>
              refine ⟨rfl, hdone, by simp [hcf], ?_⟩
              intro _ h' hh'
              simp only [Option.some.injEq] at hh'
              subst hh'
              rfl
            | some f =>
              refine ⟨rfl, hdone, ?_, by simp⟩
              intro f' hf'
              simp only [Option.some.injEq] at hf'
              subst hf'
              obtain ⟨ha, hr⟩ := hcur f hcf
              simp only [curLines, hch] at ha hr
              simp [freezeHunk, hp0, sumAddLines_append, sumRemoveLines_append,
                    sumAddLines, sumRemoveLines, curLines, ha, hr, addCount, removeCount]
        | false =>
          by_cases hnf : s.currentHunk = none ∨ s.currentFile = none
          · rw [processLine_content_nofile s line h1 h2 h3 h4 hnf]
            exact ⟨hp0, hdone, hcur, horphan⟩
          · have hch : ∃ h, s.currentHunk = some h := by
              cases hh : s.currentHunk with
              | none => exact absurd (Or.inl hh) hnf
              | some h => exact ⟨h, rfl⟩
            have hcf : ∃ f, s.currentFile = some f := by
              cases hh : s.currentFile with
              | none => exact absurd (Or.inr hh) hnf
              | some f => exact ⟨f, rfl⟩
            obtain ⟨h, hch⟩ := hch
            obtain ⟨f, hcf⟩ := hcf
            obtain ⟨ha, hr⟩ := hcur f hcf
            simp only [curLines, hch] at ha hr
            cases hplus : (jsStartsWith line "+" && !jsStartsWith line "+++") with
            | true =>
              obtain ⟨hpt, hpf⟩ : jsStartsWith line "+" = true ∧
                  jsStartsWith line "+++" = false := by
                simpa [Bool.and_eq_true, Bool.not_eq_true'] using hplus
              rw [processLine_content_add s line h f h1 h2 h3 h4 hch hcf hpt hpf]
              refine ⟨hp0, hdone, ?_, by simp⟩
              intro f' hf'
              simp only [Option.some.injEq] at hf'
              subst hf'
              simp [curLines, addCount_append, removeCount_append, addCount,
                    removeCount, ha, hr]
              omega
            | false =>
              cases hminus : (jsStartsWith line "-" && !jsStartsWith line "---") with
              | true =>
                obtain ⟨hmt, hmf⟩ : jsStartsWith line "-" = true ∧
                    jsStartsWith line "---" = false := by
                  simpa [Bool.and_eq_true, Bool.not_eq_true'] using hminus
                rw [processLine_content_remove s line h f h1 h2 h3 h4 hch hcf hplus hmt hmf]
                refine ⟨hp0, hdone, ?_, by simp⟩
                intro f' hf'
                simp only [Option.some.injEq] at hf'
                subst hf'
                simp [curLines, addCount_append, removeCount_append, addCount,
                      removeCount, ha, hr]
                omega
              | false =>
                cases hspace : jsStartsWith line " " with
                | true =>
                  rw [processLine_content_context s line h f h1 h2 h3 h4 hch hcf
                      hplus hminus hspace]
                  refine ⟨hp0, hdone, ?_, by simp [hcf]⟩
                  intro f' hf'
                  simp only [hcf, Option.some.injEq] at hf'
                  subst hf'
                  simp [curLines, addCount_append, removeCount_append, addCount,
                        removeCount, ha, hr]
                | false =>
                  rw [processLine_content_skip s line h1 h2 h3 h4 hplus hminus hspace]
                  exact ⟨hp0, hdone, hcur, horphan⟩

theorem counterInv_finalize (s : ParseState) (hinv : counterInv s) :
    ∀ fc ∈ finalizeParse s,
      fc.addedLines = sumAddLines fc.hunks ∧
      fc.removedLines = sumRemoveLines fc.hunks := by
  obtain ⟨hp0, hdone, hcur, horphan⟩ := hinv
  intro fc hfc
  unfold finalizeParse at hfc
  cases hcf : s.currentFile with
  | none =>
    rw [hcf] at hfc
    exact hdone fc hfc
  | some f =>
    rw [hcf] at hfc
    simp only [List.mem_append, List.mem_singleton] at hfc
    rcases hfc with hfc | hfc
    · exact hdone fc hfc
    · subst hfc
      obtain ⟨ha, hr⟩ := hcur f hcf
      cases hch : s.currentHunk with
      | none =>
        simp only [curLines, hch] at ha hr
        simp [ha, hr, addCount, removeCount]
      | some h0 =>
        simp only [curLines, hch] at ha hr
        simp [freezeHunk, hp0, sumAddLines_append, sumRemoveLines_append,
              sumAddLines, sumRemoveLines, ha, hr]

/-- C2 (amended): for every input text in which each line beginning with `@@`
matches the hunk-header pattern, every FileChange returned by the parser has
`addedLines` equal to the total count of Add-kind lines across its hunks and
`removedLines` equal to the Remove-kind total.  (The restriction is forced by
`parse_counters_counterexample`: a non-matching `@@` line while a hunk is open
makes the source record that hunk twice.) -/
theorem parse_counters_amended (text : String)
    (hok : ∀ line ∈ jsSplit text '\n', hunkLineOk line) :
    ∀ fc ∈ parseDiffText text,
      fc.addedLines = sumAddLines fc.hunks ∧
      fc.removedLines = sumRemoveLines fc.hunks := by
  intro fc hfc
  unfold parseDiffText at hfc
  by_cases he : text = ""
  · simp [he] at hfc
  · rw [if_neg he] at hfc
    exact counterInv_finalize _
      (foldl_processLine_inv counterInv_step (jsSplit text '\n') initParseState
        counterInv_init hok) fc hfc

/-- C2 witness: the amended theorem applied to the Scenario A input. -/
theorem parse_counters_amended_witness :
    scenarioAOutput.addedLines = sumAddLines scenarioAOutput.hunks ∧
    scenarioAOutput.removedLines = sumRemoveLines scenarioAOutput.hunks :=
  parse_counters_amended scenarioAInput (by decide) scenarioAOutput (by decide)

/-! C3: line-number monotonicity within hunks. -/

theorem nums_snoc_consecutive (ns : List Nat) (a : Nat)
    (h : ns = List.range' a ns.length) :
    ns ++ [a + ns.length] = List.range' a (ns ++ [a + ns.length]).length := by
  have hlen : (ns ++ [a + ns.length]).length = ns.length + 1 := by simp
  rw [hlen]
  nth_rewrite 1 [h]
  exact range'_snoc a ns.length

theorem monoInv_init : monoInv initParseState := by
  refine ⟨?_, ?_, ?_⟩ <;> simp [initParseState]

theorem monoInv_step (s : ParseState) (line : String) (_ : True)
    (hinv : monoInv s) : monoInv (processLine s line) := by
  obtain ⟨hdone, hfile, hcur⟩ := hinv
  cases h1 : jsStartsWith line "diff --git" with
  | true =>
    cases hcf : s.currentFile with
    | none =>
      rw [processLine_header_none s line h1 hcf]
      refine ⟨hdone, ?_, ?_⟩
      · intro f hf
        simp only [Option.some.injEq] at hf
        subst hf
        simp
      · exact hcur
    | some f =>
      rw [processLine_header_some s line f h1 hcf]
      refine ⟨?_, ?_, by simp⟩
      · intro fc hfc
        simp only [List.mem_append, List.mem_singleton] at hfc
        rcases hfc with hfc | hfc
        · exact hdone fc hfc
        · subst hfc
          cases hch : s.currentHunk with
          | none => exact hfile f hcf
          | some h0 =>
            intro h hh
            simp only [freezeHunk, List.mem_append] at hh
            rcases hh with hh | hh
            · exact hfile f hcf h hh
            · rw [List.eq_of_mem_replicate hh]
              exact (hcur h0 hch).1
      · intro f' hf'
        simp only [Option.some.injEq] at hf'
        subst hf'
        simp
  | false =>
    cases h2 : jsStartsWith line "new file mode" with
    | true =>
      rw [processLine_newfile s line h1 h2]
      cases hcf : s.currentFile with
      | none => exact ⟨hdone, hfile, hcur⟩
      | some f =>
        refine ⟨hdone, ?_, hcur⟩
        intro f' hf'
        simp only [Option.some.injEq] at hf'
        subst hf'
        intro h hh
        exact hfile f hcf h hh
    | false =>
      cases h3 : jsStartsWith line "deleted file mode" with
      | true =>
        rw [processLine_deletedfile s line h1 h2 h3]
        cases hcf : s.currentFile with
        | none => exact ⟨hdone, hfile, hcur⟩
        | some f =>
          refine ⟨hdone, ?_, hcur⟩
          intro f' hf'
          simp only [Option.some.injEq] at hf'
          subst hf'
          intro h hh
          exact hfile f hcf h hh
      | false =>
        cases h4 : jsStartsWith line "@@" with
        | true =>
          cases hm : matchHunkHeader line with
          | some q =>
            obtain ⟨os, oc, ns, nc⟩ := q
            rw [processLine_hunk_matched s line os oc ns nc h1 h2 h3 h4 hm]
            cases hch : s.currentHunk with
            | none =>
              cases hcf : s.currentFile with
              | none =>
                refine ⟨hdone, by simp [hcf], ?_⟩
                intro h hh
                simp only [Option.some.injEq] at hh
                subst hh
                refine ⟨⟨?_, ?_⟩, ?_, ?_⟩ <;> simp [oldNums, newNums]
              | some f =>
                refine ⟨hdone, ?_, ?_⟩
                · intro f' hf'
                  simp only [hcf, Option.some.injEq] at hf'
                  subst hf'
                  intro h hh
                  exact hfile f hcf h hh
                · intro h hh
                  simp only [Option.some.injEq] at hh
                  subst hh
                  refine ⟨⟨?_, ?_⟩, ?_, ?_⟩ <;> simp [oldNums, newNums]
            | some h0 =>
              cases hcf : s.currentFile with
              | none =>
                refine ⟨hdone, by simp [hcf], ?_⟩
                intro h hh
                simp only [Option.some.injEq] at hh
                subst hh
                refine ⟨⟨?_, ?_⟩, ?_, ?_⟩ <;> simp [oldNums, newNums]
              | some f =>
                refine ⟨hdone, ?_, ?_⟩
                · intro f' hf'
                  simp only [Option.some.injEq] at hf'
                  subst hf'
                  intro h hh
                  simp only [freezeHunk, List.mem_append] at hh
                  rcases hh with hh | hh
                  · exact hfile f hcf h hh
                  · rw [List.eq_of_mem_replicate hh]
                    exact (hcur h0 hch).1
                · intro h hh
                  simp only [Option.some.injEq] at hh
                  subst hh
                  refine ⟨⟨?_, ?_⟩, ?_, ?_⟩ <;> simp [oldNums, newNums]
          | none =>
            rw [processLine_hunk_unmatched s line h1 h2 h3 h4 hm]
            cases hch : s.currentHunk with
            | none =>
              cases hcf : s.currentFile with
              | none => exact ⟨hdone, hfile, hcur⟩
              | some f => exact ⟨hdone, hfile, hcur⟩
            | some h0 =>
              cases hcf : s.currentFile with
              | none => exact ⟨hdone, hfile, hcur⟩
              | some f =>
                refine ⟨hdone, ?_, ?_⟩
                · intro f' hf'
                  simp only [Option.some.injEq] at hf'
                  subst hf'
                  exact hfile f hcf
                · intro h hh
                  simp only [Option.some.injEq] at hh
                  subst hh
                  exact hcur _ hch
        | false =>
          by_cases hnf : s.currentHunk = none ∨ s.currentFile = none
          · rw [processLine_content_nofile s line h1 h2 h3 h4 hnf]
            exact ⟨hdone, hfile, hcur⟩
          · have hch : ∃ h, s.currentHunk = some h := by
              cases hh : s.currentHunk with
              | none => exact absurd (Or.inl hh) hnf
              | some h => exact ⟨h, rfl⟩
            have hcf : ∃ f, s.currentFile = some f := by
              cases hh : s.currentFile with
              | none => exact absurd (Or.inr hh) hnf
              | some f => exact ⟨f, rfl⟩
            obtain ⟨h, hch⟩ := hch
            obtain ⟨f, hcf⟩ := hcf
            obtain ⟨⟨ho, hn⟩, holc, hnlc⟩ := hcur h hch
            cases hplus : (jsStartsWith line "+" && !jsStartsWith line "+++") with
            | true =>
              obtain ⟨hpt, hpf⟩ : jsStartsWith line "+" = true ∧
                  jsStartsWith line "+++" = false := by
                simpa [Bool.and_eq_true, Bool.not_eq_true'] using hplus
              rw [processLine_content_add s line h f h1 h2 h3 h4 hch hcf hpt hpf]
              have eo : oldNums (h.lines ++
                  [DiffLine.add (jsSubstringFrom line 1) s.newLineNum]) =
                  oldNums h.lines := by
                simp [oldNums_append, oldNums]
              have en : newNums (h.lines ++
                  [DiffLine.add (jsSubstringFrom line 1) s.newLineNum]) =
                  newNums h.lines ++ [s.newLineNum] := by
                simp [newNums_append, newNums]
              refine ⟨hdone, ?_, ?_⟩
              · intro f' hf'
                simp only [Option.some.injEq] at hf'
                subst hf'
                intro h' hh'
                exact hfile f hcf h' hh'
              · intro h' hh'
                simp only [Option.some.injEq] at hh'
                subst hh'
                refine ⟨⟨?_, ?_⟩, ?_, ?_⟩
                · simpa [eo] using ho
                · show newNums (h.lines ++ _) = List.range' h.newStart _
                  rw [en, hnlc]
                  exact nums_snoc_consecutive (newNums h.lines) h.newStart hn
                · simpa [eo] using holc
                · show s.newLineNum + 1 = h.newStart + (newNums (h.lines ++ _)).length
                  rw [en]
                  simp only [List.length_append, List.length_singleton]
                  omega
            | false =>
              cases hminus : (jsStartsWith line "-" && !jsStartsWith line "---") with
              | true =>
                obtain ⟨hmt, hmf⟩ : jsStartsWith line "-" = true ∧
                    jsStartsWith line "---" = false := by
                  simpa [Bool.and_eq_true, Bool.not_eq_true'] using hminus
                rw [processLine_content_remove s line h f h1 h2 h3 h4 hch hcf hplus hmt hmf]
                have eo : oldNums (h.lines ++
                    [DiffLine.remove (jsSubstringFrom line 1) s.oldLineNum]) =
                    oldNums h.lines ++ [s.oldLineNum] := by
                  simp [oldNums_append, oldNums]
                have en : newNums (h.lines ++
                    [DiffLine.remove (jsSubstringFrom line 1) s.oldLineNum]) =
                    newNums h.lines := by
                  simp [newNums_append, newNums]
                refine ⟨hdone, ?_, ?_⟩
                · intro f' hf'
                  simp only [Option.some.injEq] at hf'
                  subst hf'
                  intro h' hh'
                  exact hfile f hcf h' hh'
                · intro h' hh'
                  simp only [Option.some.injEq] at hh'
                  subst hh'
                  refine ⟨⟨?_, ?_⟩, ?_, ?_⟩
                  · show oldNums (h.lines ++ _) = List.range' h.oldStart _
                    rw [eo, holc]
                    exact nums_snoc_consecutive (oldNums h.lines) h.oldStart ho
                  · simpa [en] using hn
                  · show s.oldLineNum + 1 = h.oldStart + (oldNums (h.lines ++ _)).length
                    rw [eo]
                    simp only [List.length_append, List.length_singleton]
                    omega
                  · simpa [en] using hnlc
              | false =>
                cases hspace : jsStartsWith line " " with
                | true =>
                  rw [processLine_content_context s line h f h1 h2 h3 h4 hch hcf
                      hplus hminus hspace]
                  have eo : oldNums (h.lines ++
                      [DiffLine.context (jsSubstringFrom line 1) s.oldLineNum s.newLineNum]) =
                      oldNums h.lines ++ [s.oldLineNum] := by
                    simp [oldNums_append, oldNums]
                  have en : newNums (h.lines ++
                      [DiffLine.context (jsSubstringFrom line 1) s.oldLineNum s.newLineNum]) =
                      newNums h.lines ++ [s.newLineNum] := by
                    simp [newNums_append, newNums]
                  refine ⟨hdone, ?_, ?_⟩
                  · intro f' hf'
                    simp only [hcf, Option.some.injEq] at hf'
                    subst hf'
                    intro h' hh'
                    exact hfile f hcf h' hh'
                  · intro h' hh'
                    simp only [Option.some.injEq] at hh'
                    subst hh'
                    refine ⟨⟨?_, ?_⟩, ?_, ?_⟩
                    · show oldNums (h.lines ++ _) = List.range' h.oldStart _
                      rw [eo, holc]
                      exact nums_snoc_consecutive (oldNums h.lines) h.oldStart ho
                    · show newNums (h.lines ++ _) = List.range' h.newStart _
                      rw [en, hnlc]
                      exact nums_snoc_consecutive (newNums h.lines) h.newStart hn
                    · show s.oldLineNum + 1 = h.oldStart + (oldNums (h.lines ++ _)).length
                      rw [eo]
                      simp only [List.length_append, List.length_singleton]
                      omega
                    · show s.newLineNum + 1 = h.newStart + (newNums (h.lines ++ _)).length
                      rw [en]
                      simp only [List.length_append, List.length_singleton]
                      omega
                | false =>
                  rw [processLine_content_skip s line h1 h2 h3 h4 hplus hminus hspace]
                  exact ⟨hdone, hfile, hcur⟩

theorem monoInv_finalize (s : ParseState) (hinv : monoInv s) :
    ∀ fc ∈ finalizeParse s, ∀ h ∈ fc.hunks, hunkLinesConsecutive h := by
  obtain ⟨hdone, hfile, hcur⟩ := hinv
  intro fc hfc
  unfold finalizeParse at hfc
  cases hcf : s.currentFile with
  | none =>
    rw [hcf] at hfc
    exact hdone fc hfc
  | some f =>
    rw [hcf] at hfc
    simp only [List.mem_append, List.mem_singleton] at hfc
    rcases hfc with hfc | hfc
    · exact hdone fc hfc
    · subst hfc
      cases hch : s.currentHunk with
      | none => exact hfile f hcf
      | some h0 =>
        intro h hh
        simp only [freezeHunk, List.mem_append] at hh
        rcases hh with hh | hh
        · exact hfile f hcf h hh
        · rw [List.eq_of_mem_replicate hh]
          exact (hcur h0 hch).1

/-- C3: in every hunk of every FileChange returned by the parser, the
`oldLineNumber` values taken in order over Remove and Context lines form the
consecutive run of length `k` starting at the hunk's `oldStart` (strictly
increasing by exactly 1), and the `newLineNumber` values over Add and Context
lines form the consecutive run starting at `newStart`. -/
theorem parse_hunks_consecutive (text : String) :
    ∀ fc ∈ parseDiffText text, ∀ h ∈ fc.hunks,
      oldNums h.lines = List.range' h.oldStart (oldNums h.lines).length ∧
      newNums h.lines = List.range' h.newStart (newNums h.lines).length := by
  intro fc hfc
  unfold parseDiffText at hfc
  by_cases he : text = ""
  · simp [he] at hfc
  · rw [if_neg he] at hfc
    exact monoInv_finalize _
      (foldl_processLine_inv monoInv_step (jsSplit text '\n') initParseState monoInv_init
        (fun _ _ => trivial)) fc hfc

/-- C3 witness: the monotonicity theorem applied to the Scenario A hunk. -/
theorem parse_hunks_consecutive_witness :
    oldNums scenarioAHunk.lines =
      List.range' scenarioAHunk.oldStart (oldNums scenarioAHunk.lines).length ∧
    newNums scenarioAHunk.lines =
      List.range' scenarioAHunk.newStart (newNums scenarioAHunk.lines).length :=
  parse_hunks_consecutive scenarioAInput scenarioAOutput (by decide) scenarioAHunk
    (by decide)

/-! C4: totality and skipping of anomalous lines. -/

theorem charsStartWith_cons_false (c p : Char) (cs ps : List Char) (h : c ≠ p) :
    charsStartWith (c :: cs) (p :: ps) = false := by
  simp [charsStartWith, h]

theorem data_of_atat (line : String) (h : jsStartsWith line "@@" = true) :
    ∃ rest, line.data = '@' :: '@' :: rest := by
  unfold jsStartsWith at h
  rw [(by decide : ("@@" : String).data = ['@', '@'])] at h
  cases hc : line.data with
  | nil => rw [hc] at h; simp [charsStartWith] at h
  | cons c cs =>
    rw [hc] at h
    cases hcs : cs with
    | nil => rw [hcs] at h; simp [charsStartWith] at h
    | cons c2 cs2 =>
      rw [hcs] at h
      simp only [charsStartWith, Bool.and_eq_true, decide_eq_true_eq] at h
      obtain ⟨hq1, hq2, _⟩ := h
      subst hq1
      subst hq2
      exact ⟨cs2, by simp [hc, hcs]⟩

theorem atat_not_other (line : String) (h : jsStartsWith line "@@" = true) :
    jsStartsWith line "diff --git" = false ∧
    jsStartsWith line "new file mode" = false ∧
    jsStartsWith line "deleted file mode" = false := by
  obtain ⟨rest, hdata⟩ := data_of_atat line h
  refine ⟨?_, ?_, ?_⟩ <;> unfold jsStartsWith <;> rw [hdata]
  · rw [(by decide :
      ("diff --git" : String).data = 'd' :: ("iff --git" : String).data)]
    exact charsStartWith_cons_false _ _ _ _ (by decide)
  · rw [(by decide :
      ("new file mode" : String).data = 'n' :: ("ew file mode" : String).data)]
    exact charsStartWith_cons_false _ _ _ _ (by decide)
  · rw [(by decide :
      ("deleted file mode" : String).data = 'd' :: ("eleted file mode" : String).data)]
    exact charsStartWith_cons_false _ _ _ _ (by decide)

/-- C4: `parseDiffText` is a deterministic, total function over arbitrary
input strings — by construction of the embedding it is a fold of a total step
function, so it never fails.  Concretely: the empty input yields the empty
sequence; a truncated diff (file header plus a malformed, cut-off hunk header)
still yields one FileChange rather than an error; every line the scanner does
not recognize leaves the state untouched, so parsing continues with the rest
of the input; and a hunk-header-like line that does not match the pattern is
ignored whenever no hunk is open. -/
theorem parse_total_and_skips :
    parseDiffText "" = [] ∧
    (parseDiffText "diff --git a/t.txt b/t.txt\n@@ -5").length = 1 ∧
    (∀ s line, skippableLine s line = true → processLine s line = s) ∧
    (∀ s line, jsStartsWith line "@@" = true → matchHunkHeader line = none →
      s.currentHunk = none → processLine s line = s) := by
  refine ⟨by decide, by decide, ?_, ?_⟩
  · intro s line hsk
    simp only [skippableLine, Bool.and_eq_true, Bool.not_eq_true',
      Bool.or_eq_true, Option.isNone_iff_eq_none] at hsk
    obtain ⟨⟨⟨⟨hD, hN⟩, hDel⟩, hAt⟩, hrest⟩ := hsk
    rcases hrest with (hcl | hno) | hno
    · simp only [contentLike, Bool.or_eq_false_iff] at hcl
      obtain ⟨⟨hplus, hminus⟩, hspace⟩ := hcl
      exact processLine_content_skip s line hD hN hDel hAt hplus hminus hspace
    · exact processLine_content_nofile s line hD hN hDel hAt (Or.inl hno)
    · exact processLine_content_nofile s line hD hN hDel hAt (Or.inr hno)
  · intro s line h4 hm hch
    obtain ⟨hD, hN, hDel⟩ := atat_not_other line h4
    rw [processLine_hunk_unmatched s line hD hN hDel h4 hm, hch]

/-- C4 witness: an `index ...` metadata line leaves the initial state
untouched. -/
theorem parse_total_and_skips_witness :
    processLine initParseState "index 1234567..89abcde 100644" = initParseState :=
  parse_total_and_skips.2.2.1 initParseState "index 1234567..89abcde 100644" (by decide)

/-! C5: the commit watcher. -/

/-- C5: with the watcher Tracking `r1`, a notification observing `r1` again
triggers zero commit acquisitions and leaves `lastCommitSha = r1`; a
notification observing `r2 ≠ r1` triggers exactly one acquisition for the
pair `(r1, r2)` and then sets `lastCommitSha = r2`.  Both statements hold for
every acquisition oracle — i.e. regardless of whether the acquisition found
changes, parsed nothing, or failed (`analyzeNewCommit` catches its own
errors, so the watermark update always runs). -/
theorem watcher_transition (oracle : CommitDiffOracle) (r1 r2 : String)
    (wt : List String) (h1 : r1 ≠ "") (h2 : r2 ≠ "") (hne : r1 ≠ r2) :
    acquisitionsTriggered (handleRepositoryChange oracle ⟨some r1⟩ ⟨some r1, wt⟩).2 = [] ∧
    (handleRepositoryChange oracle ⟨some r1⟩ ⟨some r1, wt⟩).1.lastCommitSha = some r1 ∧
    acquisitionsTriggered (handleRepositoryChange oracle ⟨some r1⟩ ⟨some r2, wt⟩).2 =
      [(r1, r2)] ∧
    (handleRepositoryChange oracle ⟨some r1⟩ ⟨some r2, wt⟩).1.lastCommitSha = some r2 := by
  refine ⟨?_, ?_, ?_, ?_⟩ <;>
    simp [handleRepositoryChange, acquisitionsTriggered, h1, h2, hne,
      List.filterMap_append, apply_ite (List.filterMap fun a =>
        match a with
        | WatcherAction.analyzeCommit p c _ => some (p, c)
        | WatcherAction.analyzeWorkingTreeDiffs _ => none)]

/-- C5 witness: the transition theorem at concrete revisions and a concrete
(always-failing) oracle. -/
theorem watcher_transition_witness :
    acquisitionsTriggered (handleRepositoryChange ⟨[], fun _ => Except.error "e"⟩
      ⟨some "r1"⟩ ⟨some "r1", []⟩).2 = [] ∧
    (handleRepositoryChange ⟨[], fun _ => Except.error "e"⟩
      ⟨some "r1"⟩ ⟨some "r1", []⟩).1.lastCommitSha = some "r1" ∧
    acquisitionsTriggered (handleRepositoryChange ⟨[], fun _ => Except.error "e"⟩
      ⟨some "r1"⟩ ⟨some "r2", []⟩).2 = [("r1", "r2")] ∧
    (handleRepositoryChange ⟨[], fun _ => Except.error "e"⟩
      ⟨some "r1"⟩ ⟨some "r2", []⟩).1.lastCommitSha = some "r2" :=
  watcher_transition ⟨[], fun _ => Except.error "e"⟩ "r1" "r2" []
    (by decide) (by decide) (by decide)

/-! C6: commit-change acquisition. -/

theorem buildFullDiff_go (fileDiff : String → Except String String)
    (ps : List String) (acc : String) :
    ps.foldl (fun acc path =>
      match fileDiff path with
      | .ok d => acc ++ d ++ "\n"
      | .error _ => acc) acc = acc ++ concatFileDiffs fileDiff ps := by
  induction ps generalizing acc with
  | nil => simp [concatFileDiffs, String.append_empty]
  | cons p t ih =>
    cases hf : fileDiff p with
    | ok d =>
      simp only [List.foldl_cons, hf, ih, concatFileDiffs]
      simp [String.append_assoc]
    | error e =>
      simp only [List.foldl_cons, hf, ih, concatFileDiffs]
      rw [String.empty_append]

theorem buildFullDiffText_eq (oracle : CommitDiffOracle) :
    buildFullDiffText oracle = concatFileDiffs oracle.fileDiff oracle.changedFiles := by
  unfold buildFullDiffText
  rw [buildFullDiff_go, String.empty_append]

/-- C6: during acquisition, a failed per-file diff is skipped without
aborting the remaining files — the acquired text is exactly the concatenation
of the successfully retrieved per-file diffs, each followed by a newline, in
file-list order (`concatFileDiffs` skips exactly the failed files).  And when
that concatenation is empty, acquisition reports no changes (`noChangedFiles`
or `noDiffText`) and the diff parser is never invoked (no recorded parser
call). -/
theorem acquisition_skip_and_empty (oracle : CommitDiffOracle) :
    buildFullDiffText oracle = concatFileDiffs oracle.fileDiff oracle.changedFiles ∧
    (buildFullDiffText oracle = "" →
      (analyzeNewCommit oracle).2 = [] ∧
      ((analyzeNewCommit oracle).1 = AnalyzeResult.noChangedFiles ∨
       (analyzeNewCommit oracle).1 = AnalyzeResult.noDiffText)) := by
  refine ⟨buildFullDiffText_eq oracle, ?_⟩
  intro hempty
  unfold analyzeNewCommit
  by_cases hcf : oracle.changedFiles.isEmpty
  · simp [hcf]
  · simp [hcf, hempty]

/-- C6 witness: with one changed file whose diff retrieval fails, the
concatenation is empty, no parser call happens, and the outcome is
"no diff text". -/
theorem acquisition_skip_and_empty_witness :
    (analyzeNewCommit ⟨["a.txt"], fun _ => Except.error "boom"⟩).2 = [] ∧
    ((analyzeNewCommit ⟨["a.txt"], fun _ => Except.error "boom"⟩).1 =
        AnalyzeResult.noChangedFiles ∨
     (analyzeNewCommit ⟨["a.txt"], fun _ => Except.error "boom"⟩).1 =
        AnalyzeResult.noDiffText) :=
  (acquisition_skip_and_empty ⟨["a.txt"], fun _ => Except.error "boom"⟩).2 rfl

/-! C7: suggestion-to-range conversion. -/

/-- C7 counterexample: a suggestion pointing at line 100 of a file whose
current content has only 3 lines produces a thread whose range ends at
0-based line 99, which does not lie within `[0, lineCount-1] = [0, 2]`: the
source only clamps below at 0 (`Math.max(0, line - 1)`) and never clamps
against the current file length, so the claimed upper clamp does not exist. -/
theorem locate_clamp_counterexample :
    jsMapGet (createAdvancedCommentThread (fun _ => some "ws/a.txt") "t1" 0 emptyManager
      { filePath := "a.txt", startLine := 100, endLine := 100,
        suggestion := "s", codeChange := none }).threads "t1" =
      some { uri := "ws/a.txt",
             range := { startLine := 99, startCharacter := 0,
                        endLine := 99, endCharacter := 1024 },
             commentCount := 1 } ∧
    ¬ ((99 : Int) ≤ 3 - 1) := by
  decide

/-- C7 (amended): when the suggestion's file is found, its 1-based
`startLine`/`endLine` are converted to a 0-based range by subtracting 1 and
clamping below at 0 (`Math.max(0, line-1)`, so the range is never negative);
there is no upper clamp against the file's current line count, and the
suggestion is never rejected: the thread is created with exactly that range
however large the line numbers are. -/
theorem locate_range_amended (findFile : String → Option String) (tid : String)
    (now : Nat) (st : CommentManagerState) (sugg : CodeReviewSuggestion) (uri : String)
    (hfind : findFile sugg.filePath = some uri) :
    jsMapGet (createAdvancedCommentThread findFile tid now st sugg).threads tid =
      some { uri := uri, range := suggestionRange sugg, commentCount := 1 } ∧
    (suggestionRange sugg).startLine = max 0 (sugg.startLine - 1) ∧
    (suggestionRange sugg).endLine = max 0 (sugg.endLine - 1) ∧
    0 ≤ (suggestionRange sugg).startLine ∧ 0 ≤ (suggestionRange sugg).endLine := by
  refine ⟨?_, rfl, rfl, le_max_left 0 _, le_max_left 0 _⟩
  unfold createAdvancedCommentThread
  rw [hfind]
  exact jsMapGet_set_self st.threads tid _

/-- C7 witness: the amended theorem at a concrete found file. -/
theorem locate_range_amended_witness :
    jsMapGet (createAdvancedCommentThread (fun _ => some "ws/a.ts") "t9" 0 emptyManager
      suggT1).threads "t9" =
      some { uri := "ws/a.ts", range := suggestionRange suggT1, commentCount := 1 } ∧
    (suggestionRange suggT1).startLine = max 0 (suggT1.startLine - 1) ∧
    (suggestionRange suggT1).endLine = max 0 (suggT1.endLine - 1) ∧
    0 ≤ (suggestionRange suggT1).startLine ∧ 0 ≤ (suggestionRange suggT1).endLine :=
  locate_range_amended (fun _ => some "ws/a.ts") "t9" 0 emptyManager suggT1 "ws/a.ts" rfl

/-! C8: apply is all-or-nothing. -/

/-- C8: `applySuggestion` either fully succeeds or changes nothing.  When the
thread id is unknown, the stored suggestion has no (JavaScript-truthy)
replacement, or the `applyEdit` collaborator rejects the edit, the registry is
returned exactly as it was — the thread stays in the active set — and the
failure outcome is reported to the caller.  Only when the collaborator accepts
the edit is the outcome the replacement written over the exact stored range
(the thread's uri, its stored range, the stored replacement), and then the
thread is disposed and removed from both maps. -/
theorem applySuggestion_all_or_nothing
    (applyEdit : String → VsRange → String → Bool) (st : CommentManagerState)
    (tid : String) :
    ((applySuggestion applyEdit st tid).2 = ApplyOutcome.noChangeAvailable →
      (applySuggestion applyEdit st tid).1 = st) ∧
    ((applySuggestion applyEdit st tid).2 = ApplyOutcome.editRejected →
      (applySuggestion applyEdit st tid).1 = st) ∧
    (∀ th td c, jsMapGet st.threads tid = some th →
      jsMapGet st.threadData tid = some td →
      td.suggestion.codeChange = some c → c ≠ "" →
      applyEdit th.uri th.range c = true →
      (applySuggestion applyEdit st tid).2 = ApplyOutcome.applied th.uri th.range c ∧
      jsMapGet (applySuggestion applyEdit st tid).1.threads tid = none ∧
      jsMapGet (applySuggestion applyEdit st tid).1.threadData tid = none ∧
      (applySuggestion applyEdit st tid).1.disposedThreads =
        st.disposedThreads ++ [tid]) ∧
    (∀ u r c, (applySuggestion applyEdit st tid).2 = ApplyOutcome.applied u r c →
      ∃ th td, jsMapGet st.threads tid = some th ∧
        jsMapGet st.threadData tid = some td ∧
        u = th.uri ∧ r = th.range ∧ td.suggestion.codeChange = some c ∧
        applyEdit th.uri th.range c = true) := by
  cases hd : jsMapGet st.threadData tid with
  | none =>
    have he : applySuggestion applyEdit st tid = (st, ApplyOutcome.noChangeAvailable) := by
      cases ht : jsMapGet st.threads tid <;> simp [applySuggestion, hd, ht]
    refine ⟨fun _ => by rw [he], fun hc => ?_, fun th td c _ htd _ _ _ => ?_,
      fun u r c hc => ?_⟩
    · rw [he] at hc; cases hc
    · exact Option.noConfusion htd
    · rw [he] at hc; cases hc
  | some td0 =>
    cases ht : jsMapGet st.threads tid with
    | none =>
      have he : applySuggestion applyEdit st tid = (st, ApplyOutcome.noChangeAvailable) := by
        simp [applySuggestion, hd, ht]
      refine ⟨fun _ => by rw [he], fun hc => ?_, fun th td c hth _ _ _ _ => ?_,
        fun u r c hc => ?_⟩
      · rw [he] at hc; cases hc
      · exact Option.noConfusion hth
      · rw [he] at hc; cases hc
    | some th0 =>
      cases hcc : td0.suggestion.codeChange with
      | none =>
        have he : applySuggestion applyEdit st tid =
            (st, ApplyOutcome.noChangeAvailable) := by
          simp [applySuggestion, hd, ht, hcc]
        refine ⟨fun _ => by rw [he], fun hc => ?_,
          fun th td c hth htd hc' _ _ => ?_, fun u r c hc => ?_⟩
        · rw [he] at hc; cases hc
        · injection htd with htd
          rw [← htd, hcc] at hc'
          exact Option.noConfusion hc'
        · rw [he] at hc; cases hc
      | some ch =>
        by_cases hch0 : ch = ""
        · subst hch0
          have he : applySuggestion applyEdit st tid =
              (st, ApplyOutcome.noChangeAvailable) := by
            simp [applySuggestion, hd, ht, hcc]
          refine ⟨fun _ => by rw [he], fun hc => ?_,
            fun th td c hth htd hc' hcne _ => ?_, fun u r c hc => ?_⟩
          · rw [he] at hc; cases hc
          · injection htd with htd
            rw [← htd, hcc] at hc'
            injection hc' with hc'
            exact absurd hc'.symm hcne
          · rw [he] at hc; cases hc
        · cases hap : applyEdit th0.uri th0.range ch with
          | false =>
            have he : applySuggestion applyEdit st tid =
                (st, ApplyOutcome.editRejected) := by
              simp [applySuggestion, hd, ht, hcc, hch0, hap]
            refine ⟨fun hc => ?_, fun _ => by rw [he],
              fun th td c hth htd hc' hcne hed => ?_, fun u r c hc => ?_⟩
            · rw [he] at hc; cases hc
            · injection hth with hth
              injection htd with htd
              rw [← htd, hcc] at hc'
              injection hc' with hc'
              rw [← hth, ← hc', hap] at hed
              cases hed
            · rw [he] at hc; cases hc
          | true =>
            have he : applySuggestion applyEdit st tid =
                ({ st with threads := jsMapDelete st.threads tid,
                           threadData := jsMapDelete st.threadData tid,
                           disposedThreads := st.disposedThreads ++ [tid] },
                 ApplyOutcome.applied th0.uri th0.range ch) := by
              simp [applySuggestion, hd, ht, hcc, hch0, hap]
            refine ⟨fun hc => ?_, fun hc => ?_,
              fun th td c hth htd hc' hcne hed => ?_, fun u r c hc => ?_⟩
            · rw [he] at hc; cases hc
            · rw [he] at hc; cases hc
            · injection hth with hth
              injection htd with htd
              rw [← htd, hcc] at hc'
              injection hc' with hc'
              rw [he]
              subst hth
              subst hc'
              exact ⟨rfl, jsMapGet_delete_self st.threads tid,
                jsMapGet_delete_self st.threadData tid, rfl⟩
            · rw [he] at hc
              injection hc with hu hr hcv
              refine ⟨th0, td0, rfl, rfl, hu.symm, hr.symm, ?_, ?_⟩
              · rw [hcc, hcv]
              · rw [← hcv]
                exact hap

/-- C8 witness: applying a suggestion with an accepted edit removes thread
`t2` and reports the exact edit. -/
theorem applySuggestion_all_or_nothing_witness :
    (applySuggestion (fun _ _ _ => true) mgrT2 "t2").2 =
      ApplyOutcome.applied "ws/b.ts" (suggestionRange suggT2) "return x;" ∧
    jsMapGet (applySuggestion (fun _ _ _ => true) mgrT2 "t2").1.threads "t2" = none ∧
    jsMapGet (applySuggestion (fun _ _ _ => true) mgrT2 "t2").1.threadData "t2" = none ∧
    (applySuggestion (fun _ _ _ => true) mgrT2 "t2").1.disposedThreads =
      mgrT2.disposedThreads ++ ["t2"] :=
  (applySuggestion_all_or_nothing (fun _ _ _ => true) mgrT2 "t2").2.2.1
    { uri := "ws/b.ts", range := suggestionRange suggT2, commentCount := 1 }
    { suggestion := suggT2, conversation := initialConversation suggT2 0,
      isCollapsed := false }
    "return x;" (by decide) (by decide) (by decide) (by decide) rfl

/-! C9: immutability of the stored suggestion. -/

/-- C9 counterexample: `fixWithAI` overwrites the stored suggestion's
optional replacement (`codeChange`) when the AI response supplies one — the
stored Suggestion record is therefore not unchanged under every thread
operation. -/
theorem suggestion_immutable_counterexample :
    ((jsMapGet mgrT1.threadData "t1").map fun td => td.suggestion.codeChange) =
      some none ∧
    ((jsMapGet (fixWithAI { success := true, message := "m", codeChange := some "fix" }
        mgrT1 "t1").threadData "t1").map fun td => td.suggestion.codeChange) =
      some (some "fix") := by
  decide

theorem jsMapGet_foldCreate_not_created (findFile : String → Option String) (now : Nat) :
    ∀ (pairs : List (CodeReviewSuggestion × String)) (st0 : CommentManagerState)
      (tid : String), (∀ p ∈ pairs, p.2 ≠ tid) →
      jsMapGet ((pairs.foldl (fun acc p =>
          createAdvancedCommentThread findFile p.2 now acc p.1) st0).threadData) tid =
        jsMapGet st0.threadData tid := by
  intro pairs
  induction pairs with
  | nil => intro st0 tid _; rfl
  | cons p t ih =>
    intro st0 tid htid
    simp only [List.foldl_cons]
    rw [ih _ tid fun q hq => htid q (List.mem_cons_of_mem p hq)]
    have hne : p.2 ≠ tid := htid p (List.mem_cons_self p t)
    unfold createAdvancedCommentThread
    cases hf : findFile p.1.filePath with
    | none => rfl
    | some uri => exact jsMapGet_set_ne _ _ _ _ hne

theorem applySuggestion_fst (applyEdit : String → VsRange → String → Bool)
    (st : CommentManagerState) (t : String) :
    (applySuggestion applyEdit st t).1 = st ∨
    (applySuggestion applyEdit st t).1 =
      { st with threads := jsMapDelete st.threads t,
                threadData := jsMapDelete st.threadData t,
                disposedThreads := st.disposedThreads ++ [t] } := by
  unfold applySuggestion
  cases hdt : jsMapGet st.threadData t with
  | none => cases hth : jsMapGet st.threads t <;> simp
  | some tdt =>
    cases hth : jsMapGet st.threads t with
    | none => simp
    | some tht =>
      cases hcc : tdt.suggestion.codeChange with
      | none => simp [hcc]
      | some ch =>
        by_cases hce : ch = ""
        · simp [hcc, hce]
        · cases hap : applyEdit tht.uri tht.range ch <;> simp [hcc, hce, hap]

/-- C9 (amended): the stored suggestion's `filePath`, `startLine`, `endLine`
and text are unchanged by every registry operation (on any thread id the
operation does not itself (re)create), and its optional replacement
(`codeChange`) is unchanged by every operation except an AI-fix request
targeted at that thread, which may overwrite the replacement with the AI's
code change (see `suggestion_immutable_counterexample`). -/
theorem suggestion_fields_preserved (st : CommentManagerState) (op : ManagerOp)
    (tid : String) (td td' : CommentThreadData)
    (hnc : opCreatesId op tid = false)
    (hbefore : jsMapGet st.threadData tid = some td)
    (hafter : jsMapGet (applyManagerOp st op).threadData tid = some td') :
    td'.suggestion.filePath = td.suggestion.filePath ∧
    td'.suggestion.startLine = td.suggestion.startLine ∧
    td'.suggestion.endLine = td.suggestion.endLine ∧
    td'.suggestion.suggestion = td.suggestion.suggestion ∧
    (opFixesId op tid = false →
      td'.suggestion.codeChange = td.suggestion.codeChange) := by
  cases op with
  | create findFile t now sugg =>
    have hne : t ≠ tid := by simpa [opCreatesId] using hnc
    simp only [applyManagerOp] at hafter
    unfold createAdvancedCommentThread at hafter
    cases hf : findFile sugg.filePath with
    | none =>
      rw [hf, hbefore] at hafter
      injection hafter with hafter
      subst hafter
      exact ⟨rfl, rfl, rfl, rfl, fun _ => rfl⟩
    | some uri =>
      rw [hf] at hafter
      have h2 : jsMapGet (jsMapSet st.threadData t
          { suggestion := sugg, conversation := initialConversation sugg now,
            isCollapsed := false }) tid = some td' := hafter
      rw [jsMapGet_set_ne _ _ _ _ hne, hbefore] at h2
      injection h2 with h2
      subst h2
      exact ⟨rfl, rfl, rfl, rfl, fun _ => rfl⟩
  | reply resp nowUser nowAi t txt =>
    simp only [applyManagerOp] at hafter
    unfold handleUserReplyFromComment at hafter
    cases hdt : jsMapGet st.threadData t with
    | none =>
      rw [hdt] at hafter
      have h2 : jsMapGet st.threadData tid = some td' := hafter
      rw [hbefore] at h2
      injection h2 with h2
      subst h2
      exact ⟨rfl, rfl, rfl, rfl, fun _ => rfl⟩
    | some tdt =>
      cases hth : jsMapGet st.threads t with
      | none =>
        rw [hdt, hth] at hafter
        have h2 : jsMapGet st.threadData tid = some td' := hafter
        rw [hbefore] at h2
        injection h2 with h2
        subst h2
        exact ⟨rfl, rfl, rfl, rfl, fun _ => rfl⟩
      | some tht =>
        rw [hdt, hth] at hafter
        by_cases hsame : t = tid
        · subst hsame
          rw [hbefore] at hdt
          injection hdt with hdt
          subst hdt
          cases hsr : resp.shouldRemove with
          | true =>
            rw [hsr] at hafter
            have h2 : jsMapGet (jsMapSet st.threadData t
                { td with conversation := td.conversation ++
                  [{ author := "User", message := txt, timestamp := nowUser }] }) t =
                some td' := hafter
            rw [jsMapGet_set_self] at h2
            injection h2 with h2
            subst h2
            exact ⟨rfl, rfl, rfl, rfl, fun _ => rfl⟩
          | false =>
            rw [hsr] at hafter
            have h2 : jsMapGet (jsMapSet st.threadData t
                { td with conversation := (td.conversation ++
                  [{ author := "User", message := txt, timestamp := nowUser }]) ++
                  [{ author := "CodeOwl AI", message := resp.message,
                     timestamp := nowAi }] }) t = some td' := hafter
            rw [jsMapGet_set_self] at h2
            injection h2 with h2
            subst h2
            exact ⟨rfl, rfl, rfl, rfl, fun _ => rfl⟩
        · cases hsr : resp.shouldRemove with
          | true =>
            rw [hsr] at hafter
            have h2 : jsMapGet (jsMapSet st.threadData t
                { tdt with conversation := tdt.conversation ++
                  [{ author := "User", message := txt, timestamp := nowUser }] }) tid =
                some td' := hafter
            rw [jsMapGet_set_ne _ _ _ _ hsame, hbefore] at h2
            injection h2 with h2
            subst h2
            exact ⟨rfl, rfl, rfl, rfl, fun _ => rfl⟩
          | false =>
            rw [hsr] at hafter
            have h2 : jsMapGet (jsMapSet st.threadData t
                { tdt with conversation := (tdt.conversation ++
                  [{ author := "User", message := txt, timestamp := nowUser }]) ++
                  [{ author := "CodeOwl AI", message := resp.message,
                     timestamp := nowAi }] }) tid = some td' := hafter
            rw [jsMapGet_set_ne _ _ _ _ hsame, hbefore] at h2
            injection h2 with h2
            subst h2
            exact ⟨rfl, rfl, rfl, rfl, fun _ => rfl⟩
  | aiFix resp t =>
    simp only [applyManagerOp] at hafter
    unfold fixWithAI at hafter
    cases hdt : jsMapGet st.threadData t with
    | none =>
      rw [hdt] at hafter
      have h2 : jsMapGet st.threadData tid = some td' := hafter
      rw [hbefore] at h2
      injection h2 with h2
      subst h2
      exact ⟨rfl, rfl, rfl, rfl, fun _ => rfl⟩
    | some tdt =>
      cases hth : jsMapGet st.threads t with
      | none =>
        rw [hdt, hth] at hafter
        have h2 : jsMapGet st.threadData tid = some td' := hafter
        rw [hbefore] at h2
        injection h2 with h2
        subst h2
        exact ⟨rfl, rfl, rfl, rfl, fun _ => rfl⟩
      | some tht =>
        rw [hdt, hth] at hafter
        by_cases hsame : t = tid
        · subst hsame
          rw [hbefore] at hdt
          injection hdt with hdt
          subst hdt
          have h2 : jsMapGet (jsMapSet st.threadData t
              (if resp.success then
                match resp.codeChange with
                | some c =>
                  if c = "" then td
                  else { td with suggestion :=
                    { td.suggestion with codeChange := some c } }
                | none => td
              else td)) t = some td' := hafter
          rw [jsMapGet_set_self] at h2
          injection h2 with h2
          subst h2
          cases hrs : resp.success with
          | false => simp
          | true =>
            cases hcc : resp.codeChange with
            | none => simp
            | some c =>
              by_cases hce : c = ""
              · simp [hce]
              · simp [hce, opFixesId]
        · have h2 : jsMapGet (jsMapSet st.threadData t
              (if resp.success then
                match resp.codeChange with
                | some c =>
                  if c = "" then tdt
                  else { tdt with suggestion :=
                    { tdt.suggestion with codeChange := some c } }
                | none => tdt
              else tdt)) tid = some td' := hafter
          rw [jsMapGet_set_ne _ _ _ _ hsame, hbefore] at h2
          injection h2 with h2
          subst h2
          exact ⟨rfl, rfl, rfl, rfl, fun _ => rfl⟩
  | applyFix applyEdit t =>
    have hred : applyManagerOp st (ManagerOp.applyFix applyEdit t) =
        (applySuggestion applyEdit st t).1 := rfl
    rw [hred] at hafter
    rcases applySuggestion_fst applyEdit st t with he | he
    · rw [he, hbefore] at hafter
      injection hafter with hafter
      subst hafter
      exact ⟨rfl, rfl, rfl, rfl, fun _ => rfl⟩
    · rw [he] at hafter
      have h2 : jsMapGet (jsMapDelete st.threadData t) tid = some td' := hafter
      by_cases hsame : t = tid
      · subst hsame
        rw [jsMapGet_delete_self] at h2
        exact Option.noConfusion h2
      · rw [jsMapGet_delete_ne _ _ _ hsame, hbefore] at h2
        injection h2 with h2
        subst h2
        exact ⟨rfl, rfl, rfl, rfl, fun _ => rfl⟩
  | understood t =>
    simp only [applyManagerOp] at hafter
    unfold markAsUnderstood at hafter
    cases hth : jsMapGet st.threads t with
    | none =>
      rw [hth] at hafter
      have h2 : jsMapGet st.threadData tid = some td' := hafter
      rw [hbefore] at h2
      injection h2 with h2
      subst h2
      exact ⟨rfl, rfl, rfl, rfl, fun _ => rfl⟩
    | some tht =>
      rw [hth] at hafter
      have h2 : jsMapGet (jsMapDelete st.threadData t) tid = some td' := hafter
      by_cases hsame : t = tid
      · subst hsame
        rw [jsMapGet_delete_self] at h2
        exact Option.noConfusion h2
      · rw [jsMapGet_delete_ne _ _ _ hsame, hbefore] at h2
        injection h2 with h2
        subst h2
        exact ⟨rfl, rfl, rfl, rfl, fun _ => rfl⟩
  | clearAll =>
    exact Option.noConfusion hafter
  | display findFile ids now review =>
    have hmem : ∀ p ∈ review.suggestions.zip ids, p.2 ≠ tid := by
      intro p hp hpe
      have hin : p.2 ∈ ids := by
        obtain ⟨a, b⟩ := p
        exact (List.of_mem_zip hp).2
      rw [hpe] at hin
      simp only [opCreatesId, decide_eq_false_iff_not] at hnc
      exact hnc hin
    simp only [applyManagerOp] at hafter
    unfold displayReviewsAsComments at hafter
    cases hemp : review.suggestions.isEmpty with
    | true =>
      rw [hemp] at hafter
      exact Option.noConfusion hafter
    | false =>
      rw [hemp] at hafter
      have h2 : jsMapGet (((review.suggestions.zip ids).foldl (fun acc p =>
          createAdvancedCommentThread findFile p.2 now acc p.1)
          (clearAllComments st)).threadData) tid = some td' := hafter
      rw [jsMapGet_foldCreate_not_created findFile now _ _ tid hmem] at h2
      exact Option.noConfusion h2

/-- C9 witness: resolving an unrelated thread leaves `t1`'s stored suggestion
fields untouched. -/
theorem suggestion_fields_preserved_witness :
    tdT1.suggestion.filePath = tdT1.suggestion.filePath ∧
    tdT1.suggestion.startLine = tdT1.suggestion.startLine ∧
    tdT1.suggestion.endLine = tdT1.suggestion.endLine ∧
    tdT1.suggestion.suggestion = tdT1.suggestion.suggestion ∧
    (opFixesId (ManagerOp.understood "zz") "t1" = false →
      tdT1.suggestion.codeChange = tdT1.suggestion.codeChange) :=
  suggestion_fields_preserved mgrT1 (ManagerOp.understood "zz") "t1" tdT1 tdT1
    (by decide) (by decide) (by decide)

/-! C10: displaying a review resets the thread set. -/

theorem foldCreate_fresh (findFile : String → Option String) (now : Nat) :
    ∀ (pairs : List (CodeReviewSuggestion × String)) (st0 : CommentManagerState),
      (∀ p ∈ pairs, jsMapGet st0.threads p.2 = none ∧
        jsMapGet st0.threadData p.2 = none) →
      (pairs.map fun p => p.2).Nodup →
      pairs.foldl (fun acc p =>
          createAdvancedCommentThread findFile p.2 now acc p.1) st0 =
        { threads := st0.threads ++ expectedThreads findFile pairs,
          threadData := st0.threadData ++ expectedThreadData findFile now pairs,
          disposedThreads := st0.disposedThreads } := by
  intro pairs
  induction pairs with
  | nil =>
    intro st0 _ _
    cases st0 with
    | mk a b c => simp [expectedThreads, expectedThreadData]
  | cons p t ih =>
    intro st0 hfresh hnodup
    rw [List.map_cons, List.nodup_cons] at hnodup
    obtain ⟨hnotin, hnodup'⟩ := hnodup
    have h0 := hfresh p (List.mem_cons_self p t)
    simp only [List.foldl_cons]
    cases hf : findFile p.1.filePath with
    | none =>
      have hcreq : createAdvancedCommentThread findFile p.2 now st0 p.1 = st0 := by
        unfold createAdvancedCommentThread
        rw [hf]
      rw [hcreq, ih st0 (fun q hq => hfresh q (List.mem_cons_of_mem p hq)) hnodup']
      simp [expectedThreads, expectedThreadData, hf]
    | some uri =>
      have hst1 : createAdvancedCommentThread findFile p.2 now st0 p.1 =
          ⟨jsMapSet st0.threads p.2 ⟨uri, suggestionRange p.1, 1⟩,
           jsMapSet st0.threadData p.2 ⟨p.1, initialConversation p.1 now, false⟩,
           st0.disposedThreads⟩ := by
        unfold createAdvancedCommentThread
        rw [hf]
      have hfresh1 : ∀ q ∈ t,
          jsMapGet (jsMapSet st0.threads p.2 ⟨uri, suggestionRange p.1, 1⟩) q.2 = none ∧
          jsMapGet (jsMapSet st0.threadData p.2
            ⟨p.1, initialConversation p.1 now, false⟩) q.2 = none := by
        intro q hq
        have hne : p.2 ≠ q.2 := fun he =>
          hnotin (he ▸ List.mem_map_of_mem (fun r => r.2) hq)
        have hq' := hfresh q (List.mem_cons_of_mem p hq)
        exact ⟨by rw [jsMapGet_set_ne _ _ _ _ hne]; exact hq'.1,
               by rw [jsMapGet_set_ne _ _ _ _ hne]; exact hq'.2⟩
      rw [hst1, ih _ hfresh1 hnodup']
      rw [jsMapSet_of_get_none _ _ _ h0.1, jsMapSet_of_get_none _ _ _ h0.2]
      simp [expectedThreads, expectedThreadData, hf, List.append_assoc]

/-- C10: displaying a new review first disposes every previously active
thread (each old thread id lands in the disposal log; both maps are rebuilt
from empty), and afterwards the two maps hold exactly one entry per
(suggestion, fresh id) pair of the new review whose file path matched a
workspace file — in review order, each with the suggestion stored intact and
exactly one initial conversation message — and no thread of any earlier
review remains.  `threadIds` supplies the generated ids, assumed pairwise
distinct (the source generates time-plus-randomness ids; uniqueness is the
stated requirement). -/
theorem displayReviews_fresh_state (findFile : String → Option String)
    (threadIds : List String) (now : Nat) (st : CommentManagerState)
    (review : CodeReview) (hlen : threadIds.length = review.suggestions.length)
    (hnodup : threadIds.Nodup) :
    (∀ tid ∈ st.threads.map (fun kv => kv.1),
      tid ∈ (displayReviewsAsComments findFile threadIds now st review).disposedThreads) ∧
    (displayReviewsAsComments findFile threadIds now st review).threads =
      expectedThreads findFile (review.suggestions.zip threadIds) ∧
    (displayReviewsAsComments findFile threadIds now st review).threadData =
      expectedThreadData findFile now (review.suggestions.zip threadIds) ∧
    (∀ e ∈ (displayReviewsAsComments findFile threadIds now st review).threadData,
      e.2.conversation.length = 1) := by
  have hkey : displayReviewsAsComments findFile threadIds now st review =
      { threads := expectedThreads findFile (review.suggestions.zip threadIds),
        threadData := expectedThreadData findFile now (review.suggestions.zip threadIds),
        disposedThreads := st.disposedThreads ++ st.threads.map (fun kv => kv.1) } := by
    by_cases hemp : review.suggestions.isEmpty = true
    · have hnil : review.suggestions = [] := List.isEmpty_iff.mp hemp
      unfold displayReviewsAsComments
      simp [hnil, clearAllComments, expectedThreads, expectedThreadData]
    · have hemp' : review.suggestions.isEmpty = false := by
        cases hie : review.suggestions.isEmpty
        · rfl
        · exact absurd hie hemp
      have hsnd : ((review.suggestions.zip threadIds).map fun p => p.2).Nodup := by
        show ((review.suggestions.zip threadIds).map Prod.snd).Nodup
        rw [List.map_snd_zip _ _ (le_of_eq hlen)]
        exact hnodup
      have step1 : displayReviewsAsComments findFile threadIds now st review =
          (review.suggestions.zip threadIds).foldl
            (fun acc p => createAdvancedCommentThread findFile p.2 now acc p.1)
            (clearAllComments st) := by
        unfold displayReviewsAsComments
        rw [hemp']
        rfl
      rw [step1, foldCreate_fresh findFile now (review.suggestions.zip threadIds)
        (clearAllComments st) (fun p _ => ⟨rfl, rfl⟩) hsnd]
      simp [clearAllComments]
  refine ⟨?_, ?_, ?_, ?_⟩
  · intro tid htid
    rw [hkey]
    exact List.mem_append.mpr (Or.inr htid)
  · rw [hkey]
  · rw [hkey]
  · intro e he
    rw [hkey] at he
    simp only [expectedThreadData, List.mem_filterMap] at he
    obtain ⟨p, hp, hpe⟩ := he
    cases hf : findFile p.1.filePath with
    | none =>
      rw [hf] at hpe
      exact Option.noConfusion hpe
    | some uri =>
      rw [hf] at hpe
      injection hpe with hpe
      rw [← hpe]
      simp [initialConversation]

/-- C10 witness: a two-suggestion review (one file found, one not) on a
registry holding an old thread. -/
theorem displayReviews_fresh_state_witness :
    (displayReviewsAsComments
        (fun fp => if fp = "a.ts" then some "ws/a.ts" else none) ["id1", "id2"] 0 mgrT1
        { summary := "s", suggestions := [suggT1, suggT2] }).threadData =
      expectedThreadData (fun fp => if fp = "a.ts" then some "ws/a.ts" else none) 0
        ([suggT1, suggT2].zip ["id1", "id2"]) :=
  (displayReviews_fresh_state
    (fun fp => if fp = "a.ts" then some "ws/a.ts" else none) ["id1", "id2"] 0 mgrT1
    { summary := "s", suggestions := [suggT1, suggT2] } (by decide) (by decide)).2.2.1

end VsCodeOwl
